import Mathlib

/-!
Verification development for the LR(0)/SLR parser generator in
`lr0_parser.py` (class `LRParser`).

The Python code is shallowly embedded here:

* a grammar symbol is a `String` (`Sym`);
* the grammar (a Python dict from non-terminal to its list of alternative
  right-hand sides, insertion-ordered) is an association list;
* an LR(0) item `(lhs, rhs, dot_pos)` is the structure `Item`;
* Python `set`s of items become Lean lists, with operations written so that
  members are only ever added when not already present (mirroring the
  `if new_item not in closure_set` guards of the source);
* the unbounded `while` loops and the unguarded recursions of the source
  (`closure`'s fixed-point loop, the breadth-first state construction in
  `items`, the recursions of `first`/`follow`, the `parse` driver loop)
  take an explicit fuel argument and return `Option`/`none` when the fuel
  runs out, so that nontermination of the source is expressible;
* the two `defaultdict(dict)` tables become association lists of
  association lists (`Outer`), with the defaultdict's touch-on-read
  behaviour (`touchOuter`) modelled explicitly, since `parse` reads the
  tables through `self.action_table[state]` / `self.goto_table[...]` and
  thereby inserts empty inner dicts.
-/

namespace LR0

/-- A grammar symbol: terminal or non-terminal, compared by value
(Python compares the strings). -/
abbrev Sym := String

/-- A grammar: association list from non-terminal to its list of
alternative right-hand sides, in insertion order (Python dict). -/
abbrev Grammar := List (Sym × List (List Sym))

/-- `self.grammar.get(n, [])` respectively `self.grammar[n]` (the latter
only ever called on keys present in the dict along the paths we model). -/
def prods (g : Grammar) (n : Sym) : List (List Sym) :=
  match g with
  | [] => []
  | (m, ps) :: rest => if m = n then ps else prods rest n

/-- An LR(0) item `(lhs, rhs, dot_pos)`. -/
structure Item where
  lhs : Sym
  rhs : List Sym
  dot : Nat
  deriving DecidableEq, Repr

/-- The symbol right after the dot, total with a default (all uses are
guarded by `dot < rhs.length`, as in the source's `rhs[dot_pos]`). -/
def Item.next (it : Item) : Sym := it.rhs.getD it.dot ""

/-- Whether the dot is strictly before the end of the right-hand side. -/
def Item.active (it : Item) : Bool := decide (it.dot < it.rhs.length)

/-- One round of the `while added` loop body of `LRParser.closure`: all
items `(N, production, 0)` demanded by an item of `X` whose next symbol is
the non-terminal `N`, deduplicated and with the ones already in `X`
dropped (the source's `if new_item not in closure_set` check). -/
def closureNew (g : Grammar) (nts : List Sym) (X : List Item) : List Item :=
  ((X.flatMap fun it =>
      if it.active && decide (it.next ∈ nts) then
        (prods g it.next).map fun p => Item.mk it.next p 0
      else []).dedup).filter fun it => decide (it ∉ X)

/-- The fixed-point loop of `LRParser.closure`, with fuel: each round that
adds no new item stops, otherwise the new items are appended and the loop
continues. -/
def closureFuel (g : Grammar) (nts : List Sym) : Nat → List Item → List Item
  | 0, X => X
  | n + 1, X =>
    let new := closureNew g nts X
    if new = [] then X else closureFuel g nts n (X ++ new)

/-- Fuel that always suffices for `closureFuel` to reach the fixed point:
one more than the number of distinct items the loop could ever add
(an item `(N, p, 0)` per grammar production). -/
def closureBound (g : Grammar) : Nat :=
  ((g.flatMap fun e => e.2.map fun p => Item.mk e.1 p 0).toFinset).card + 1

/-- `LRParser.closure`: the least set of items containing `X` and closed
under expanding the non-terminal after each dot. -/
def closure (g : Grammar) (nts : List Sym) (X : List Item) : List Item :=
  closureFuel g nts (closureBound g) X

/-- `LRParser.goto`: advance the dot past `sym` in every item of `X` whose
next symbol is `sym`, then close the result. -/
def goto (g : Grammar) (nts : List Sym) (X : List Item) (sym : Sym) : List Item :=
  closure g nts
    ((X.filter fun it => it.active && decide (it.next = sym)).map fun it =>
      Item.mk it.lhs it.rhs (it.dot + 1))

/-- The items the loop of `closure` can ever add, as a finset. -/
def itemPool (g : Grammar) : Finset Item :=
  (g.flatMap fun e => e.2.map fun p => Item.mk e.1 p 0).toFinset

/-- The loop measure: items of the pool not yet in `X`. -/
def poolLeft (g : Grammar) (X : List Item) : Nat :=
  (itemPool g \ X.toFinset).card

/-- A non-empty `prods g n` identifies an entry of the grammar. -/
theorem prods_mem : ∀ {g : Grammar} {n : Sym}, prods g n ≠ [] → (n, prods g n) ∈ g := by
  intro g
  induction g with
  | nil => intro n h; exact absurd rfl h
  | cons e rest ih =>
    obtain ⟨m, ps⟩ := e
    intro n h
    by_cases he : m = n
    · subst he
      simp [prods]
    · simp only [prods, if_neg he] at h ⊢
      exact List.mem_cons_of_mem _ (ih h)

theorem closureNew_subset_pool {g : Grammar} {nts : List Sym} {X : List Item}
    {it : Item} (h : it ∈ closureNew g nts X) : it ∈ itemPool g ∧ it ∉ X := by
  unfold closureNew at h
  rw [List.mem_filter] at h
  obtain ⟨h1, h2⟩ := h
  rw [List.mem_dedup, List.mem_flatMap] at h1
  obtain ⟨src, _hsrc, hmem⟩ := h1
  constructor
  · by_cases hc : src.active && decide (src.next ∈ nts)
    · rw [if_pos hc, List.mem_map] at hmem
      obtain ⟨p, hp, rfl⟩ := hmem
      unfold itemPool
      rw [List.mem_toFinset, List.mem_flatMap]
      have hne : prods g src.next ≠ [] := by
        intro hnil
        rw [hnil] at hp
        exact absurd hp (List.not_mem_nil p)
      exact ⟨(src.next, prods g src.next), prods_mem hne,
        List.mem_map.mpr ⟨p, hp, rfl⟩⟩
    · rw [if_neg hc] at hmem
      exact absurd hmem (List.not_mem_nil _)
  · exact of_decide_eq_true h2

theorem poolLeft_lt {g : Grammar} {nts : List Sym} {X : List Item}
    (h : closureNew g nts X ≠ []) :
    poolLeft g (X ++ closureNew g nts X) < poolLeft g X := by
  obtain ⟨a, ha⟩ := List.exists_mem_of_ne_nil _ h
  obtain ⟨hpool, hnot⟩ := closureNew_subset_pool ha
  apply Finset.card_lt_card
  constructor
  · intro x hx
    simp only [Finset.mem_sdiff, List.mem_toFinset, List.mem_append] at hx ⊢
    tauto
  · intro hsub
    have ha' : a ∈ itemPool g \ X.toFinset := by
      simp only [Finset.mem_sdiff, List.mem_toFinset]
      exact ⟨hpool, hnot⟩
    have hb := hsub ha'
    simp only [Finset.mem_sdiff, List.mem_toFinset, List.mem_append] at hb
    exact hb.2 (Or.inr ha)

theorem closureFuel_fixed {g : Grammar} {nts : List Sym} :
    ∀ (n : Nat) (X : List Item), poolLeft g X < n →
      closureNew g nts (closureFuel g nts n X) = [] := by
  intro n
  induction n with
  | zero => intro X h; exact absurd h (Nat.not_lt_zero _)
  | succ n ih =>
    intro X h
    unfold closureFuel
    by_cases hnew : closureNew g nts X = []
    · rw [if_pos hnew]
      exact hnew
    · rw [if_neg hnew]
      apply ih
      have hlt := @poolLeft_lt g nts X hnew
      omega

theorem poolLeft_lt_bound (g : Grammar) (X : List Item) :
    poolLeft g X < closureBound g := by
  unfold poolLeft closureBound itemPool
  have := Finset.card_le_card (Finset.sdiff_subset
    (s := (g.flatMap fun e => e.2.map fun p => Item.mk e.1 p 0).toFinset)
    (t := X.toFinset))
  omega

/-- The closure loop has converged: one more round adds nothing. -/
theorem closureNew_closure (g : Grammar) (nts : List Sym) (X : List Item) :
    closureNew g nts (closure g nts X) = [] :=
  closureFuel_fixed (closureBound g) X (poolLeft_lt_bound g X)

theorem closureFuel_of_fixed {g : Grammar} {nts : List Sym} {X : List Item}
    (h : closureNew g nts X = []) : ∀ n, closureFuel g nts n X = X := by
  intro n
  cases n with
  | zero => rfl
  | succ n =>
    unfold closureFuel
    rw [if_pos h]

/-- The closure loop only appends: its input is an initial segment of its
output. -/
theorem closureFuel_extends (g : Grammar) (nts : List Sym) :
    ∀ (n : Nat) (X : List Item), ∃ t, closureFuel g nts n X = X ++ t := by
  intro n
  induction n with
  | zero => intro X; exact ⟨[], (List.append_nil X).symm⟩
  | succ n ih =>
    intro X
    unfold closureFuel
    by_cases hnew : closureNew g nts X = []
    · rw [if_pos hnew]; exact ⟨[], (List.append_nil X).symm⟩
    · rw [if_neg hnew]
      obtain ⟨t, ht⟩ := ih (X ++ closureNew g nts X)
      exact ⟨closureNew g nts X ++ t, by rw [ht, List.append_assoc]⟩

theorem subset_closure {g : Grammar} {nts : List Sym} {X : List Item}
    {it : Item} (h : it ∈ X) : it ∈ closure g nts X := by
  obtain ⟨t, ht⟩ := closureFuel_extends g nts (closureBound g) X
  unfold closure
  rw [ht]
  exact List.mem_append.mpr (Or.inl h)

/-- Every item of `closure X` either comes from `X` or was added by the
loop: then it has dot 0, its left-hand side is a non-terminal demanded by
some item of the closure whose dot stands right before it, and its
right-hand side is one of that non-terminal's productions. -/
theorem closure_origin {g : Grammar} {nts : List Sym} {X : List Item}
    {it : Item} (h : it ∈ closure g nts X) :
    it ∈ X ∨ (it.dot = 0 ∧ it.lhs ∈ nts ∧ it.rhs ∈ prods g it.lhs ∧
      ∃ p ∈ closure g nts X, p.active = true ∧ p.next = it.lhs) := by
  suffices hgen : ∀ (n : Nat) (Y : List Item), it ∈ closureFuel g nts n Y →
      (∀ q ∈ Y, q ∈ closure g nts X) →
      Y = X ∨ (∀ q ∈ Y, q ∈ X ∨ (q.dot = 0 ∧ q.lhs ∈ nts ∧ q.rhs ∈ prods g q.lhs ∧
        ∃ p ∈ closure g nts X, p.active = true ∧ p.next = q.lhs)) →
      it ∈ X ∨ (it.dot = 0 ∧ it.lhs ∈ nts ∧ it.rhs ∈ prods g it.lhs ∧
        ∃ p ∈ closure g nts X, p.active = true ∧ p.next = it.lhs) by
    exact hgen (closureBound g) X h (fun q hq => subset_closure hq) (Or.inl rfl)
  intro n
  induction n with
  | zero =>
    intro Y hit hsub hY
    rcases hY with rfl | hY
    · exact Or.inl hit
    · exact hY it hit
  | succ n ih =>
    intro Y hit hsub hY
    have hmemY : ∀ q ∈ Y, q ∈ X ∨ (q.dot = 0 ∧ q.lhs ∈ nts ∧ q.rhs ∈ prods g q.lhs ∧
        ∃ p ∈ closure g nts X, p.active = true ∧ p.next = q.lhs) := by
      rcases hY with rfl | hY
      · exact fun q hq => Or.inl hq
      · exact hY
    unfold closureFuel at hit
    by_cases hnew : closureNew g nts Y = []
    · rw [if_pos hnew] at hit
      exact hmemY it hit
    · rw [if_neg hnew] at hit
      apply ih (Y ++ closureNew g nts Y) hit
      · intro q hq
        rcases List.mem_append.mp hq with hq | hq
        · exact hsub q hq
        · -- a freshly added item sits in `closure X` as well: its source item
          -- is in `Y ⊆ closure X`, and the converged closure already holds it
          unfold closureNew at hq
          rw [List.mem_filter] at hq
          obtain ⟨hq1, _⟩ := hq
          rw [List.mem_dedup, List.mem_flatMap] at hq1
          obtain ⟨src, hsrc, hmem⟩ := hq1
          by_cases hc : src.active && decide (src.next ∈ nts)
          · rw [if_pos hc, List.mem_map] at hmem
            obtain ⟨p, hp, rfl⟩ := hmem
            by_contra hnotin
            have hinnew : (Item.mk src.next p 0) ∈ closureNew g nts (closure g nts X) := by
              unfold closureNew
              rw [List.mem_filter, List.mem_dedup, List.mem_flatMap]
              refine ⟨⟨src, hsub src hsrc, ?_⟩, by simpa using hnotin⟩
              rw [if_pos hc, List.mem_map]
              exact ⟨p, hp, rfl⟩
            rw [closureNew_closure] at hinnew
            exact absurd hinnew (List.not_mem_nil _)
          · rw [if_neg hc] at hmem
            exact absurd hmem (List.not_mem_nil _)
      · right
        intro q hq
        rcases List.mem_append.mp hq with hq | hq
        · exact hmemY q hq
        · unfold closureNew at hq
          rw [List.mem_filter] at hq
          obtain ⟨hq1, _⟩ := hq
          rw [List.mem_dedup, List.mem_flatMap] at hq1
          obtain ⟨src, hsrc, hmem⟩ := hq1
          by_cases hc : src.active && decide (src.next ∈ nts)
          · rw [if_pos hc, List.mem_map] at hmem
            obtain ⟨p, hp, rfl⟩ := hmem
            rw [Bool.and_eq_true, decide_eq_true_eq] at hc
            refine Or.inr ⟨rfl, hc.2, hp, src, hsub src hsrc, hc.1, rfl⟩
          · rw [if_neg hc] at hmem
            exact absurd hmem (List.not_mem_nil _)

/-- `closure` of the empty set is empty. -/
theorem closure_nil (g : Grammar) (nts : List Sym) : closure g nts [] = [] := by
  have h : closureNew g nts [] = [] := by
    unfold closureNew
    simp
  unfold closure
  exact closureFuel_of_fixed h _

/-- `closure` is idempotent (list-level, hence also set-level). -/
theorem closure_idem (g : Grammar) (nts : List Sym) (X : List Item) :
    closure g nts (closure g nts X) = closure g nts X := by
  have h := closureNew_closure g nts X
  unfold closure
  exact closureFuel_of_fixed h _

/-- `set.add`: append a symbol unless already present. -/
def insertIfNew (l : List Sym) (s : Sym) : List Sym :=
  if s ∈ l then l else l ++ [s]

/-- `set.update`: fold the right list into the left one. -/
def unionList (a b : List Sym) : List Sym := b.foldl insertIfNew a

/-- `LRParser.first`, with fuel bounding the recursion depth. The source
recurses with no visited-set guard; `none` models a call that cannot
complete within the given depth (so `first` diverges in Python exactly
when every fuel yields `none`), and also the `IndexError` of
`production[0]` on an empty right-hand side. -/
def first (g : Grammar) (terms : List Sym) : Nat → Sym → Option (List Sym)
  | 0, _ => none
  | n + 1, nt =>
    (prods g nt).foldlM
      (fun acc production =>
        match production with
        | [] => none
        | s :: _ =>
          if s ∈ terms then some (insertIfNew acc s)
          else (first g terms n s).map fun f => unionList acc f)
      []

/-- `LRParser.follow`, with fuel bounding the recursion depth (the source
recurses into `follow(lhs)` for occurrences at the end of a production,
again with no guard). The scan order is the source's: grammar entries in
insertion order, productions in order, positions left to right. -/
def follow (g : Grammar) (terms : List Sym) (start : Sym) : Nat → Sym → Option (List Sym)
  | 0, _ => none
  | n + 1, nt =>
    g.foldlM
      (fun acc entry =>
        entry.2.foldlM
          (fun acc production =>
            (List.range production.length).foldlM
              (fun acc i =>
                if production.getD i "" = nt then
                  if i + 1 < production.length then
                    if production.getD (i + 1) "" ∈ terms then
                      some (insertIfNew acc (production.getD (i + 1) ""))
                    else
                      (first g terms n (production.getD (i + 1) "")).map fun f =>
                        unionList acc f
                  else (follow g terms start n entry.1).map fun f => unionList acc f
                else some acc)
              acc)
          acc)
      (if nt = start then ["$"] else [])

/-- The example grammar embedded in the `__main__` block of the source. -/
def egGrammar : Grammar :=
  [("S'", [["S"]]),
   ("S", [["E"]]),
   ("E", [["E", "+", "T"], ["T"]]),
   ("T", [["T", "*", "F"], ["F"]]),
   ("F", [["(", "E", ")"], ["id"]])]

def egTerminals : List Sym := ["+", "*", "(", ")", "id"]

def egNts : List Sym := ["S", "E", "T", "F"]

def egStart : Sym := "S'"

/-- `self.terminals` after `__init__` appended the end marker. -/
def egTerms : List Sym := egTerminals ++ ["$"]

/-- On the embedded example grammar, `first("E")` never completes at any
recursion depth: the production `E → E + T` starts with `E` itself, and
the source recurses into `first("E")` with no visited-set guard. -/
theorem first_E_diverges : ∀ n, first egGrammar egTerms n "E" = none := by
  intro n
  induction n with
  | zero => rfl
  | succ n ih =>
    simp only [egGrammar, egTerms, egTerminals, List.cons_append,
      List.nil_append] at ih ⊢
    simp only [first]
    simp only [List.foldlM]
    simp [prods]
    intro a ha
    rw [ih] at ha
    cases ha

/-- A grammar on which the source's `follow` never completes: `A` ends a
production of `B` and `B` ends a production of `A`, so `follow(A)` and
`follow(B)` call each other forever. -/
def cycGrammar : Grammar :=
  [("S'", [["S"]]), ("S", [["A"]]), ("A", [["a", "B"]]), ("B", [["b", "A"]])]

def cycTerms : List Sym := ["a", "b", "$"]

/-- A parser action: the values stored in `action_table` cells. -/
inductive Action where
  | shift : Nat → Action
  | reduce : Sym → List Sym → Action
  | accept : Action
  deriving DecidableEq, Repr

/-- A `defaultdict(dict)`: outer association list from state index to an
inner association list from symbol to value. The outer list keeps Python's
dict insertion order (new keys appended at the end); inner writes cons at
the front and lookups take the first match, so the latest write wins, as
for a Python dict cell overwritten in place. -/
def Outer (α : Type) : Type := List (Nat × List (Sym × α))

instance {α : Type} [DecidableEq α] : DecidableEq (Outer α) :=
  inferInstanceAs (DecidableEq (List (Nat × List (Sym × α))))

/-- `table[i][s] = a`: update the inner dict of key `i`, creating the
outer entry at the end if `i` is absent (defaultdict behaviour). -/
def setCell {α : Type} (o : Outer α) (i : Nat) (s : Sym) (a : α) : Outer α :=
  match o with
  | [] => [(i, [(s, a)])]
  | (j, inner) :: rest =>
    if j = i then (j, (s, a) :: inner) :: rest else (j, inner) :: setCell rest i s a

/-- First-match lookup in an inner dict. -/
def lookupInner {α : Type} (inner : List (Sym × α)) (s : Sym) : Option α :=
  match inner with
  | [] => none
  | (t, a) :: rest => if t = s then some a else lookupInner rest s

/-- `s in table[i]` / `table[i][s]` as a pure lookup (without the
defaultdict's side effect, which `touchOuter` models separately). -/
def lookupCell {α : Type} (o : Outer α) (i : Nat) (s : Sym) : Option α :=
  match o with
  | [] => none
  | (j, inner) :: rest => if j = i then lookupInner inner s else lookupCell rest i s

/-- The side effect of reading `table[i]` on a `defaultdict`: a missing
outer key is inserted with an empty inner dict. -/
def touchOuter {α : Type} (o : Outer α) (i : Nat) : Outer α :=
  match o with
  | [] => [(i, [])]
  | (j, inner) :: rest =>
    if j = i then (j, inner) :: rest else (j, inner) :: touchOuter rest i

/-- All `((state, symbol), value)` entries of a table, flattened. -/
def cellEntries {α : Type} (o : Outer α) : List ((Nat × Sym) × α) :=
  o.flatMap fun p => p.2.map fun q => ((p.1, q.1), q.2)

/-- `state1.all (· ∈ state2) && state2.all (· ∈ state1)`: how
`frozenset(state)` keys compare in `state_mapping`. -/
def setEqItems (a b : List Item) : Bool :=
  (a.all fun x => decide (x ∈ b)) && (b.all fun x => decide (x ∈ a))

/-- Index of the first stored state whose item set equals `p`
(`state_mapping[frozenset(p)]`; states are pairwise distinct as sets, so
this is the mapping's entry when it exists). -/
def findStateAux (states : List (List Item)) (p : List Item) (k : Nat) : Option Nat :=
  match states with
  | [] => none
  | s :: rest => if setEqItems s p then some k else findStateAux rest p (k + 1)

def findState (states : List (List Item)) (p : List Item) : Option Nat :=
  findStateAux states p 0

/-- The mutable state of `LRParser.items`' breadth-first loop. -/
structure BuildSt where
  states : List (List Item)
  queue : List (List Item)
  action : Outer Action
  gotoT : Outer Nat
  deriving DecidableEq

/-- The body of `for symbol in self.terminals + self.non_terminals`: one
symbol of the popped state `p` (whose index is `stIdx`). A non-empty goto
set is looked up among the known states, appended as a fresh state (and
enqueued) when new, and the edge is recorded as a shift action for a
terminal or a goto entry otherwise. -/
def stepSymbol (g : Grammar) (nts terms' : List Sym) (stIdx : Nat) (p : List Item)
    (st : BuildSt) (sym : Sym) : BuildSt :=
  let nxt := goto g nts p sym
  if nxt = [] then st
  else
    match findState st.states nxt with
    | some j =>
      if sym ∈ terms' then { st with action := setCell st.action stIdx sym (Action.shift j) }
      else { st with gotoT := setCell st.gotoT stIdx sym j }
    | none =>
      let j := st.states.length
      let st' := { st with states := st.states ++ [nxt], queue := st.queue ++ [nxt] }
      if sym ∈ terms' then { st' with action := setCell st'.action stIdx sym (Action.shift j) }
      else { st' with gotoT := setCell st'.gotoT stIdx sym j }

/-- All symbols of one popped state, processed left to right. -/
def processState (g : Grammar) (nts terms' : List Sym) (stIdx : Nat) (p : List Item)
    (syms : List Sym) (st : BuildSt) : BuildSt :=
  syms.foldl (stepSymbol g nts terms' stIdx p) st

/-- The `while states_queue` loop of `LRParser.items`, with fuel. `none`
models exhausted fuel (or the impossible missing `state_mapping` key). -/
def bfsFuel (g : Grammar) (nts terms' : List Sym) : Nat → BuildSt → Option BuildSt
  | 0, st => if st.queue = [] then some st else none
  | n + 1, st =>
    match st.queue with
    | [] => some st
    | p :: rest =>
      match findState st.states p with
      | none => none
      | some stIdx =>
        bfsFuel g nts terms' n
          (processState g nts terms' stIdx p (terms' ++ nts) { st with queue := rest })

/-- One item of the reduce/accept phase: a complete item of the start
symbol appends the `accept` write at the end marker, any other complete
item appends a `reduce` write for every terminal of its left-hand side's
FOLLOW set, an incomplete item appends nothing. -/
def swStep (g : Grammar) (terms' : List Sym) (start : Sym) (folF : Nat) (i : Nat)
    (acc : List ((Nat × Sym) × Action)) (it : Item) :
    Option (List ((Nat × Sym) × Action)) :=
  if it.dot = it.rhs.length then
    if it.lhs = start then some (acc ++ [((i, "$"), Action.accept)])
    else
      (follow g terms' start folF it.lhs).map fun fl =>
        acc ++ fl.map fun t => ((i, t), Action.reduce it.lhs it.rhs)
  else some acc

/-- The reduce/accept writes of one state, in item-list order. `none`
when a `follow` call does not terminate within the fuel. -/
def stateWrites (g : Grammar) (terms' : List Sym) (start : Sym) (folF : Nat)
    (i : Nat) (S : List Item) : Option (List ((Nat × Sym) × Action)) :=
  S.foldlM (swStep g terms' start folF i) []

/-- The write list of the whole reduce/accept phase, state by state. -/
def reduceWrites (g : Grammar) (terms' : List Sym) (start : Sym) (folF : Nat) :
    Nat → List (List Item) → Option (List ((Nat × Sym) × Action))
  | _, [] => some []
  | i, S :: rest =>
    match stateWrites g terms' start folF i S with
    | none => none
    | some w1 =>
      match reduceWrites g terms' start folF (i + 1) rest with
      | none => none
      | some w2 => some (w1 ++ w2)

/-- Perform a list of writes on an action table, left to right. -/
def applyWrites (ws : List ((Nat × Sym) × Action)) (base : Outer Action) : Outer Action :=
  ws.foldl (fun o w => setCell o w.1.1 w.1.2 w.2) base

/-- The output of `LRParser.items`: the states list and the two tables. -/
structure Tables where
  states : List (List Item)
  action : Outer Action
  gotoT : Outer Nat
  deriving DecidableEq

/-- `LRParser.items`: build the canonical collection breadth-first, then
add the reduce/accept actions. `terms` is the caller's terminal list; the
end marker is appended as in `__init__`. `bfsF` bounds the loop, `folF`
the `follow`/`first` recursion depth. -/
def items (g : Grammar) (nts terms : List Sym) (start : Sym) (bfsF folF : Nat) :
    Option Tables :=
  let terms' := terms ++ ["$"]
  match prods g start with
  | [] => none
  | p0 :: _ =>
    let s0 := closure g nts [Item.mk start p0 0]
    match bfsFuel g nts terms' bfsF (BuildSt.mk [s0] [s0] [] []) with
    | none => none
    | some st =>
      match reduceWrites g terms' start folF 0 st.states with
      | none => none
      | some ws => some (Tables.mk st.states (applyWrites ws st.action) st.gotoT)

/-- A parse stack entry: Python's stack mixes symbols and state indices. -/
inductive StackEntry where
  | state : Nat → StackEntry
  | sym : Sym → StackEntry
  deriving DecidableEq, Repr

/-- How a `parse` call ends. `accepted` is Python's `return True`;
`errorAt pos sym` is the raised `SyntaxError(f"Syntax error at position
{index}: {current_symbol}")`. The remaining constructors are the other
uncaught Python exceptions that the driver loop could in principle raise:
`gotoMissing` a `KeyError` on the goto-table lookup after a reduction,
`underflow` an `IndexError` from popping past the bottom of the stack,
`overrun` an `IndexError` reading `input_string[index]` out of bounds,
and `badStack` a lookup with a non-state on top of the stack. -/
inductive ParseOutcome where
  | accepted : ParseOutcome
  | errorAt : Nat → Sym → ParseOutcome
  | gotoMissing : ParseOutcome
  | underflow : ParseOutcome
  | overrun : ParseOutcome
  | badStack : ParseOutcome
  deriving DecidableEq, Repr

/-- The `while True` driver loop of `LRParser.parse`, with fuel. The
tables are threaded because the `defaultdict` reads
`self.action_table[state]` and `self.goto_table[stack[-2]]` insert empty
inner dicts for missing outer keys; the returned tables are the tables as
the call leaves them. -/
def parseFuel : Outer Action → Outer Nat → Nat → List StackEntry → List Sym → Nat →
    Option (ParseOutcome × Outer Action × Outer Nat)
  | _, _, 0, _, _, _ => none
  | act, got, n + 1, stack, input, index =>
    match stack with
    | StackEntry.state s :: _ =>
      if index < input.length then
        let cur := input.getD index ""
        let act1 := touchOuter act s
        match lookupCell act1 s cur with
        | none => some (ParseOutcome.errorAt index cur, act1, got)
        | some (Action.shift dest) =>
          parseFuel act1 got n (StackEntry.state dest :: StackEntry.sym cur :: stack)
            input (index + 1)
        | some (Action.reduce lhs rhs) =>
          if 2 * rhs.length < stack.length then
            match stack.drop (2 * rhs.length) with
            | StackEntry.state j :: rest' =>
              let got1 := touchOuter got j
              match lookupCell got1 j lhs with
              | none => some (ParseOutcome.gotoMissing, act1, got1)
              | some dest =>
                parseFuel act1 got1 n
                  (StackEntry.state dest :: StackEntry.sym lhs :: StackEntry.state j :: rest')
                  input index
            | _ => some (ParseOutcome.badStack, act1, got)
          else some (ParseOutcome.underflow, act1, got)
        | some Action.accept => some (ParseOutcome.accepted, act1, got)
      else some (ParseOutcome.overrun, act, got)
    | _ => some (ParseOutcome.badStack, act, got)

/-- `LRParser.parse`: append the end marker, seed the stack with state 0,
run the driver loop. -/
def parse (act : Outer Action) (got : Outer Nat) (input : List Sym) (fuel : Nat) :
    Option (ParseOutcome × Outer Action × Outer Nat) :=
  parseFuel act got fuel [StackEntry.state 0] (input ++ ["$"]) 0

theorem getLast?_cons_getD {α : Type} (a : α) (l : List α) :
    (a :: l).getLast? = some (l.getLast?.getD a) := by
  induction l generalizing a with
  | nil => rfl
  | cons b l ih =>
    rw [List.getLast?_cons_cons, ih b]
    rfl

theorem lookupCell_setCell {α : Type} (o : Outer α) (i : Nat) (s : Sym) (a : α)
    (j : Nat) (t : Sym) :
    lookupCell (setCell o i s a) j t =
      if i = j ∧ s = t then some a else lookupCell o j t := by
  induction o with
  | nil =>
    by_cases hi : i = j <;> by_cases hs : s = t <;>
      simp [setCell, lookupCell, lookupInner, hi, hs]
  | cons e rest ih =>
    obtain ⟨k, inner⟩ := e
    by_cases hk : k = i
    · subst hk
      by_cases hj : k = j
      · subst hj
        by_cases hs : s = t <;>
          simp [setCell, lookupCell, lookupInner, hs]
      · simp [setCell, lookupCell, hj, fun h : k = j ∧ s = t => hj h.1]
    · simp only [setCell, if_neg hk]
      by_cases hj : k = j
      · subst hj
        have : ¬(i = k ∧ s = t) := fun h => hk h.1.symm
        simp [lookupCell, this]
      · simp [lookupCell, hj, ih]

theorem lookupCell_touchOuter {α : Type} (o : Outer α) (i : Nat) (j : Nat) (t : Sym) :
    lookupCell (touchOuter o i) j t = lookupCell o j t := by
  induction o with
  | nil => simp [touchOuter, lookupCell, lookupInner]
  | cons e rest ih =>
    obtain ⟨k, inner⟩ := e
    by_cases hk : k = i
    · simp [touchOuter, hk]
    · simp only [touchOuter, if_neg hk]
      by_cases hj : k = j
      · simp [lookupCell, hj]
      · simp [lookupCell, hj, ih]

theorem lookupInner_mem {α : Type} {inner : List (Sym × α)} {t : Sym} {a : α}
    (h : lookupInner inner t = some a) : (t, a) ∈ inner := by
  induction inner with
  | nil => cases h
  | cons e rest ih =>
    obtain ⟨u, b⟩ := e
    by_cases hu : u = t
    · subst hu
      rw [lookupInner, if_pos rfl] at h
      cases h
      exact List.mem_cons_self _ _
    · rw [lookupInner, if_neg hu] at h
      exact List.mem_cons_of_mem _ (ih h)

theorem lookupCell_mem {α : Type} {o : Outer α} {j : Nat} {t : Sym} {a : α}
    (h : lookupCell o j t = some a) : ((j, t), a) ∈ cellEntries o := by
  induction o with
  | nil => cases h
  | cons e rest ih =>
    obtain ⟨k, inner⟩ := e
    by_cases hk : k = j
    · subst hk
      rw [lookupCell, if_pos rfl] at h
      have := lookupInner_mem h
      unfold cellEntries
      rw [List.flatMap_cons, List.mem_append]
      exact Or.inl (List.mem_map.mpr ⟨(t, a), this, rfl⟩)
    · rw [lookupCell, if_neg hk] at h
      unfold cellEntries at ih ⊢
      rw [List.flatMap_cons, List.mem_append]
      exact Or.inr (ih h)

theorem cellEntries_cons {α : Type} (k : Nat) (inner : List (Sym × α)) (rest : Outer α) :
    cellEntries ((k, inner) :: rest) =
      (inner.map fun q => ((k, q.1), q.2)) ++ cellEntries rest := by
  simp [cellEntries]

theorem cellEntries_setCell {α : Type} {o : Outer α} {i : Nat} {s : Sym} {a : α}
    {e : (Nat × Sym) × α} (h : e ∈ cellEntries (setCell o i s a)) :
    e = ((i, s), a) ∨ e ∈ cellEntries o := by
  induction o with
  | nil =>
    have heq : cellEntries (setCell ([] : Outer α) i s a) = [((i, s), a)] := rfl
    rw [heq, List.mem_singleton] at h
    exact Or.inl h
  | cons p rest ih =>
    obtain ⟨k, inner⟩ := p
    by_cases hk : k = i
    · subst hk
      have hset : setCell ((k, inner) :: rest) k s a = (k, (s, a) :: inner) :: rest := by
        simp [setCell]
      rw [hset] at h
      rw [cellEntries_cons, List.map_cons] at h
      rcases List.mem_append.mp h with hm | hm
      · rcases List.mem_cons.mp hm with hm | hm
        · exact Or.inl hm
        · refine Or.inr ?_
          rw [cellEntries_cons, List.mem_append]
          exact Or.inl hm
      · refine Or.inr ?_
        rw [cellEntries_cons, List.mem_append]
        exact Or.inr hm
    · simp only [setCell, if_neg hk] at h
      rw [cellEntries_cons] at h
      rcases List.mem_append.mp h with hm | hm
      · refine Or.inr ?_
        rw [cellEntries_cons, List.mem_append]
        exact Or.inl hm
      · rcases ih hm with hm | hm
        · exact Or.inl hm
        · refine Or.inr ?_
          rw [cellEntries_cons, List.mem_append]
          exact Or.inr hm

theorem cellEntries_touchOuter {α : Type} {o : Outer α} {i : Nat}
    {e : (Nat × Sym) × α} (h : e ∈ cellEntries (touchOuter o i)) :
    e ∈ cellEntries o := by
  induction o with
  | nil =>
    have heq : cellEntries (touchOuter ([] : Outer α) i) = [] := rfl
    rw [heq] at h
    cases h
  | cons p rest ih =>
    obtain ⟨k, inner⟩ := p
    by_cases hk : k = i
    · simpa [touchOuter, hk] using h
    · simp only [touchOuter, if_neg hk] at h
      rw [cellEntries_cons] at h
      rw [cellEntries_cons]
      rcases List.mem_append.mp h with hm | hm
      · exact List.mem_append.mpr (Or.inl hm)
      · exact List.mem_append.mpr (Or.inr (ih hm))

/-- The value a cell holds after a write sequence: the last write to that
cell if any, the base table's value otherwise. -/
theorem lookupCell_applyWrites (ws : List ((Nat × Sym) × Action)) (base : Outer Action)
    (j : Nat) (t : Sym) :
    lookupCell (applyWrites ws base) j t =
      match (ws.filter fun w => decide (w.1 = (j, t))).getLast? with
      | some w => some w.2
      | none => lookupCell base j t := by
  induction ws generalizing base with
  | nil => rfl
  | cons w ws ih =>
    unfold applyWrites at ih ⊢
    rw [List.foldl_cons, ih]
    by_cases hw : w.1 = (j, t)
    · have hw1 : w.1.1 = j := by rw [hw]
      have hw2 : w.1.2 = t := by rw [hw]
      rw [List.filter_cons_of_pos (by simpa using hw), getLast?_cons_getD]
      cases hl : (ws.filter fun w => decide (w.1 = (j, t))).getLast? with
      | none =>
        simp only [hl, Option.getD_none]
        rw [lookupCell_setCell, if_pos ⟨hw1, hw2⟩]
      | some w' => simp only [hl, Option.getD_some]
    · rw [List.filter_cons_of_neg (by simpa using hw)]
      cases hl : (ws.filter fun w => decide (w.1 = (j, t))).getLast? with
      | none =>
        simp only [hl]
        rw [lookupCell_setCell, if_neg]
        intro hc
        exact hw (by rw [← hc.1, ← hc.2])
      | some w' => simp only [hl]

theorem follow_cyc_diverges :
    ∀ n, follow cycGrammar cycTerms "S'" n "A" = none ∧
      follow cycGrammar cycTerms "S'" n "B" = none := by
  intro n
  induction n with
  | zero => exact ⟨rfl, rfl⟩
  | succ n ih =>
    obtain ⟨ihA, ihB⟩ := ih
    simp only [cycGrammar, cycTerms] at ihA ihB ⊢
    constructor
    · simp only [follow]
      simp only [List.foldlM]
      simp [ihB]
    · simp only [follow]
      simp only [List.foldlM]
      simp [ihA]

/-- The tables the source's `__main__` block builds: `parser.items()` on
the embedded example grammar (50 loop iterations and follow depth 10 are
ample; the computation succeeds well within them). -/
def egItems : Option Tables := items egGrammar egNts egTerminals egStart 50 10

/-- C1: the claim says `first(N)` and `follow(N)` terminate on every
grammar because a visited/memoization guard treats a revisited
non-terminal as contributing the empty set. The source has no such guard:
on the embedded example grammar itself, `first("E")` recurses into
`first("E")` through the left-recursive production `E → E + T` and never
returns, whatever recursion depth is allowed (`none` at every fuel); and
`follow` likewise never returns on a grammar whose FOLLOW dependencies
are mutual (`A` last in a production of `B` and vice versa). -/
theorem c1_first_follow_diverge :
    (∀ n, first egGrammar egTerms n "E" = none) ∧
      (∀ n, follow cycGrammar cycTerms "S'" n "A" = none) :=
  ⟨first_E_diverges, fun n => (follow_cyc_diverges n).1⟩

/-- C4: `goto(X, sym)` is empty when no item of `X` has its dot
immediately before `sym`, and the result is always closure-complete:
`closure (goto X sym) = goto X sym`. -/
theorem c4_goto_empty_and_closed (g : Grammar) (nts : List Sym) (X : List Item)
    (sym : Sym) :
    ((∀ it ∈ X, ¬(it.active = true ∧ it.next = sym)) → goto g nts X sym = []) ∧
      closure g nts (goto g nts X sym) = goto g nts X sym := by
  constructor
  · intro h
    unfold goto
    have hfil : (X.filter fun it => it.active && decide (it.next = sym)) = [] := by
      rw [List.filter_eq_nil_iff]
      intro it hit
      rw [Bool.and_eq_true, decide_eq_true_eq]
      exact h it hit
    rw [hfil, List.map_nil, closure_nil]
  · exact closure_idem g nts _

/-- Witness for C4 at a concrete input: the empty item set has no item
at all, so `goto` of it is empty, and the example grammar's `goto` result
is closure-complete. -/
theorem c4_goto_empty_and_closed_witness :
    goto egGrammar egNts [] "id" = [] ∧
      closure egGrammar egNts (goto egGrammar egNts [] "id") = goto egGrammar egNts [] "id" :=
  ⟨(c4_goto_empty_and_closed egGrammar egNts [] "id").1 (by intro it hit; cases hit),
    (c4_goto_empty_and_closed egGrammar egNts [] "id").2⟩

/-- C5: `closure` is idempotent — even at the level of the produced
lists, hence in particular as item sets. -/
theorem c5_closure_idempotent (g : Grammar) (nts : List Sym) (X : List Item) :
    closure g nts (closure g nts X) = closure g nts X :=
  closure_idem g nts X

/-- Whatever `parse`'s driver loop does to the threaded tables, every
cell lookup is unchanged: the only mutations are the `defaultdict`
insertions of empty inner dicts, which no lookup can observe. -/
theorem parseFuel_preserves_lookups :
    ∀ (n : Nat) (act : Outer Action) (got : Outer Nat) (stack : List StackEntry)
      (input : List Sym) (idx : Nat) (res : ParseOutcome × Outer Action × Outer Nat),
      parseFuel act got n stack input idx = some res →
      (∀ i s, lookupCell res.2.1 i s = lookupCell act i s) ∧
      (∀ i s, lookupCell res.2.2 i s = lookupCell got i s) := by
  intro n
  induction n with
  | zero => intro act got stack input idx res h; cases h
  | succ n ih =>
    intro act got stack input idx res h
    match stack, h with
    | [], h =>
      have h2 : (ParseOutcome.badStack, act, got) = res := Option.some.inj h
      subst h2
      exact ⟨fun i s => rfl, fun i s => rfl⟩
    | StackEntry.sym x :: rest, h =>
      have h2 : (ParseOutcome.badStack, act, got) = res := Option.some.inj h
      subst h2
      exact ⟨fun i s => rfl, fun i s => rfl⟩
    | StackEntry.state st :: rest, h =>
      rw [parseFuel] at h
      by_cases hidx : idx < input.length
      · rw [if_pos hidx] at h
        simp only [] at h
        split at h
        · -- missing action entry: SyntaxError, action table touched
          have h2 := Option.some.inj h
          subst h2
          exact ⟨fun i s => lookupCell_touchOuter act st i s, fun i s => rfl⟩
        · -- shift
          have hrec := ih _ _ _ _ _ _ h
          refine ⟨fun i s => ?_, hrec.2⟩
          rw [hrec.1 i s, lookupCell_touchOuter]
        · -- reduce
          split at h
          · split at h
            · -- exposed top is a state: goto-table lookup
              split at h
              · have h2 := Option.some.inj h
                subst h2
                exact ⟨fun i s => lookupCell_touchOuter act st i s,
                  fun i s => lookupCell_touchOuter got _ i s⟩
              · have hrec := ih _ _ _ _ _ _ h
                refine ⟨fun i s => ?_, fun i s => ?_⟩
                · rw [hrec.1 i s, lookupCell_touchOuter]
                · rw [hrec.2 i s, lookupCell_touchOuter]
            · -- exposed top is not a state
              have h2 := Option.some.inj h
              subst h2
              exact ⟨fun i s => lookupCell_touchOuter act st i s, fun i s => rfl⟩
          · -- stack underflow
            have h2 := Option.some.inj h
            subst h2
            exact ⟨fun i s => lookupCell_touchOuter act st i s, fun i s => rfl⟩
        · -- accept
          have h2 := Option.some.inj h
          subst h2
          exact ⟨fun i s => lookupCell_touchOuter act st i s, fun i s => rfl⟩
      · rw [if_neg hidx] at h
        have h2 := Option.some.inj h
        subst h2
        exact ⟨fun i s => rfl, fun i s => rfl⟩

/-- The tables of `egItems`, unwrapped (the build does succeed, which
`c9_example_parse_accepts` and the witnesses certify by evaluation). -/
def egT : Tables := egItems.getD (Tables.mk [] [] [])

/-- A grammar whose initial state has no action-table entry at all: from
`closure {S' → .S} = {S' → .S, S → .B a, B → .S b}` every dot stands
before a non-terminal, so state 0 gets only goto edges and no complete
item, and the reduce/accept phase writes nothing for it either. -/
def noActGrammar : Grammar :=
  [("S'", [["S"]]), ("S", [["B", "a"]]), ("B", [["S", "b"]])]

def noActT : Tables :=
  (items noActGrammar ["S", "B"] ["a", "b"] "S'" 20 10).getD (Tables.mk [] [] [])

/-- C7 counterexample: a `parse` call can change the action table. On
`noActGrammar`, the read `self.action_table[0]` in the very first loop
iteration inserts an empty inner dict for the missing key 0 (a
`defaultdict` side effect), so the table after the (failing) parse differs
from the table before — the claim's "including their key sets" fails. -/
theorem c7_counterexample_action_key_added :
    (items noActGrammar ["S", "B"] ["a", "b"] "S'" 20 10).isSome = true ∧
      (parse noActT.action noActT.gotoT [] 10).isSome = true ∧
      ((parse noActT.action noActT.gotoT [] 10).map fun r => r.2.1) ≠
        some noActT.action := by
  refine ⟨by decide, by decide, by decide⟩

/-- C7 amended: a `parse` call leaves every table cell unchanged — every
`(state, symbol)` lookup in the action table and in the goto table yields
the same result after the call as before (and the grammar and states
list are not touched at all: `parse` never writes to them). Only the
outer key sets of the two `defaultdict`s can grow by empty entries, which
is what the counterexample exhibits. -/
theorem c7_parse_preserves_cells (act : Outer Action) (got : Outer Nat)
    (input : List Sym) (fuel : Nat) (res : ParseOutcome × Outer Action × Outer Nat)
    (h : parse act got input fuel = some res) :
    (∀ i s, lookupCell res.2.1 i s = lookupCell act i s) ∧
      (∀ i s, lookupCell res.2.2 i s = lookupCell got i s) :=
  parseFuel_preserves_lookups fuel act got _ _ _ res h

/-- Witness for C7's amended theorem on the example grammar's tables:
after parsing `[id]`, the cells the run touched read exactly as before. -/
theorem c7_parse_preserves_cells_witness :
    lookupCell ((parse egT.action egT.gotoT ["id"] 50).getD
        (ParseOutcome.accepted, [], [])).2.1 0 "id" = lookupCell egT.action 0 "id" ∧
      lookupCell ((parse egT.action egT.gotoT ["id"] 50).getD
        (ParseOutcome.accepted, [], [])).2.2 0 "E" = lookupCell egT.gotoT 0 "E" := by
  have h : parse egT.action egT.gotoT ["id"] 50 =
      some ((parse egT.action egT.gotoT ["id"] 50).getD
        (ParseOutcome.accepted, [], [])) := by decide
  exact ⟨(c7_parse_preserves_cells _ _ _ _ _ h).1 0 "id",
    (c7_parse_preserves_cells _ _ _ _ _ h).2 0 "E"⟩

theorem swStep_extends {g : Grammar} {terms' : List Sym} {start : Sym} {folF i : Nat}
    {acc res : List ((Nat × Sym) × Action)} {it : Item}
    (h : swStep g terms' start folF i acc it = some res) : ∃ t, res = acc ++ t := by
  unfold swStep at h
  split at h
  · split at h
    · exact ⟨_, (Option.some.inj h).symm⟩
    · cases hfl : follow g terms' start folF it.lhs with
      | none => rw [hfl] at h; cases h
      | some fl =>
        rw [hfl, Option.map_some'] at h
        exact ⟨_, (Option.some.inj h).symm⟩
  · exact ⟨[], by rw [← Option.some.inj h, List.append_nil]⟩

theorem swFold_extends {g : Grammar} {terms' : List Sym} {start : Sym} {folF i : Nat} :
    ∀ (S : List Item) (acc res : List ((Nat × Sym) × Action)),
      S.foldlM (swStep g terms' start folF i) acc = some res → ∃ t, res = acc ++ t := by
  intro S
  induction S with
  | nil =>
    intro acc res h
    exact ⟨[], by rw [← Option.some.inj h, List.append_nil]⟩
  | cons it0 S ih =>
    intro acc res h
    rw [List.foldlM_cons] at h
    cases hstep : swStep g terms' start folF i acc it0 with
    | none => rw [hstep] at h; cases h
    | some acc' =>
      rw [hstep] at h
      rw [Option.bind_eq_bind, Option.some_bind] at h
      obtain ⟨t1, rfl⟩ := swStep_extends hstep
      obtain ⟨t2, rfl⟩ := ih _ _ h
      exact ⟨t1 ++ t2, by rw [List.append_assoc]⟩

/-- Every complete item of the state contributes its prescribed writes to
`stateWrites`' output: `accept` at the end marker for the start symbol,
`reduce` at every FOLLOW terminal otherwise. -/
theorem swFold_mem {g : Grammar} {terms' : List Sym} {start : Sym} {folF i : Nat} :
    ∀ (S : List Item) (acc res : List ((Nat × Sym) × Action)),
      S.foldlM (swStep g terms' start folF i) acc = some res →
      ∀ it ∈ S, it.dot = it.rhs.length →
        (it.lhs = start → ((i, "$"), Action.accept) ∈ res) ∧
        (it.lhs ≠ start → ∃ fl, follow g terms' start folF it.lhs = some fl ∧
          ∀ t ∈ fl, ((i, t), Action.reduce it.lhs it.rhs) ∈ res) := by
  intro S
  induction S with
  | nil => intro acc res h it hit; cases hit
  | cons it0 S ih =>
    intro acc res h it hit hdot
    rw [List.foldlM_cons] at h
    cases hstep : swStep g terms' start folF i acc it0 with
    | none => rw [hstep] at h; cases h
    | some acc' =>
      rw [hstep] at h
      rw [Option.bind_eq_bind, Option.some_bind] at h
      rcases List.mem_cons.mp hit with rfl | hit'
      · obtain ⟨t2, rfl⟩ := swFold_extends S acc' _ h
        unfold swStep at hstep
        rw [if_pos hdot] at hstep
        constructor
        · intro hstart
          rw [if_pos hstart] at hstep
          rw [← Option.some.inj hstep]
          simp [List.mem_append]
        · intro hne
          rw [if_neg hne] at hstep
          cases hfl : follow g terms' start folF it.lhs with
          | none => rw [hfl] at hstep; cases hstep
          | some fl =>
            rw [hfl, Option.map_some'] at hstep
            refine ⟨fl, rfl, fun t ht => ?_⟩
            rw [← Option.some.inj hstep]
            simp only [List.append_assoc, List.mem_append]
            refine Or.inr (Or.inl ?_)
            exact List.mem_map.mpr ⟨t, ht, rfl⟩
      · exact ih acc' _ h it hit' hdot

/-- Conversely, every write of `stateWrites` was generated by a complete
item of the state: it never writes a shift, and a `reduce lhs rhs` write
at `(i, t)` comes from the complete item `(lhs, rhs, |rhs|)` of the state
with `lhs` different from the start symbol. -/
theorem swFold_prov {g : Grammar} {terms' : List Sym} {start : Sym} {folF i : Nat}
    {S0 : List Item} :
    ∀ (S : List Item) (acc res : List ((Nat × Sym) × Action)),
      S.foldlM (swStep g terms' start folF i) acc = some res →
      (∀ x ∈ S, x ∈ S0) →
      ∀ w ∈ res, w ∈ acc ∨
        (w.1.1 = i ∧ (∀ d, w.2 ≠ Action.shift d) ∧
          ∀ A α, w.2 = Action.reduce A α → A ≠ start ∧ Item.mk A α α.length ∈ S0) := by
  intro S
  induction S with
  | nil =>
    intro acc res h _ w hw
    rw [← Option.some.inj h] at hw
    exact Or.inl hw
  | cons it0 S ih =>
    intro acc res h hsub w hw
    rw [List.foldlM_cons] at h
    cases hstep : swStep g terms' start folF i acc it0 with
    | none => rw [hstep] at h; cases h
    | some acc' =>
      rw [hstep] at h
      rw [Option.bind_eq_bind, Option.some_bind] at h
      have hsub' : ∀ x ∈ S, x ∈ S0 := fun x hx => hsub x (List.mem_cons_of_mem _ hx)
      rcases ih acc' res h hsub' w hw with hacc' | hprop
      · -- the write is already in the accumulator after `it0`'s step
        unfold swStep at hstep
        by_cases hdot : it0.dot = it0.rhs.length
        · by_cases hstart : it0.lhs = start
          · rw [if_pos hdot, if_pos hstart] at hstep
            rw [← Option.some.inj hstep, List.mem_append] at hacc'
            rcases hacc' with hm | hm
            · exact Or.inl hm
            · rw [List.mem_singleton] at hm
              subst hm
              exact Or.inr ⟨rfl, fun d hd => Action.noConfusion hd,
                fun A α hr => Action.noConfusion hr⟩
          · rw [if_pos hdot, if_neg hstart] at hstep
            cases hfl : follow g terms' start folF it0.lhs with
            | none => rw [hfl] at hstep; cases hstep
            | some fl =>
              rw [hfl, Option.map_some'] at hstep
              rw [← Option.some.inj hstep, List.mem_append] at hacc'
              rcases hacc' with hm | hm
              · exact Or.inl hm
              · obtain ⟨t, _ht, rfl⟩ := List.mem_map.mp hm
                refine Or.inr ⟨rfl, fun d hd => Action.noConfusion hd, fun A α hr => ?_⟩
                cases hr
                have hit0 : Item.mk it0.lhs it0.rhs it0.rhs.length = it0 := by
                  cases it0 with
                  | mk l r d =>
                    simp only at hdot
                    simp [hdot]
                rw [hit0]
                exact ⟨hstart, hsub it0 (List.mem_cons_self _ _)⟩
        · rw [if_neg hdot] at hstep
          rw [← Option.some.inj hstep] at hacc'
          exact Or.inl hacc'
      · exact Or.inr hprop

/-- Write membership lifted to the whole reduce/accept phase. -/
theorem reduceWrites_mem {g : Grammar} {terms' : List Sym} {start : Sym} {folF : Nat} :
    ∀ (states : List (List Item)) (k : Nat) (ws : List ((Nat × Sym) × Action)),
      reduceWrites g terms' start folF k states = some ws →
      ∀ j, j < states.length → ∀ it ∈ states.getD j [], it.dot = it.rhs.length →
        (it.lhs = start → ((k + j, "$"), Action.accept) ∈ ws) ∧
        (it.lhs ≠ start → ∃ fl, follow g terms' start folF it.lhs = some fl ∧
          ∀ t ∈ fl, ((k + j, t), Action.reduce it.lhs it.rhs) ∈ ws) := by
  intro states
  induction states with
  | nil =>
    intro k ws h j hj
    exact absurd hj (Nat.not_lt_zero j)
  | cons S rest ih =>
    intro k ws h j hj it hit hdot
    rw [reduceWrites] at h
    cases hw1 : stateWrites g terms' start folF k S with
    | none => rw [hw1] at h; cases h
    | some w1 =>
      rw [hw1] at h
      cases hw2 : reduceWrites g terms' start folF (k + 1) rest with
      | none => rw [hw2] at h; cases h
      | some w2 =>
        rw [hw2] at h
        have hws : w1 ++ w2 = ws := Option.some.inj h
        subst hws
        cases j with
        | zero =>
          have hmem := swFold_mem S [] w1 hw1 it (by simpa using hit) hdot
          rw [Nat.add_zero]
          refine ⟨fun hs => ?_, fun hs => ?_⟩
          · exact List.mem_append.mpr (Or.inl ((hmem.1 hs)))
          · obtain ⟨fl, hfl, hmems⟩ := hmem.2 hs
            exact ⟨fl, hfl, fun t ht => List.mem_append.mpr (Or.inl (hmems t ht))⟩
        | succ j' =>
          have hj' : j' < rest.length := by simpa using hj
          have hget : (S :: rest).getD (j' + 1) [] = rest.getD j' [] := rfl
          rw [hget] at hit
          have hmem := ih (k + 1) w2 hw2 j' hj' it hit hdot
          have harith : k + 1 + j' = k + (j' + 1) := by omega
          rw [harith] at hmem
          refine ⟨fun hs => ?_, fun hs => ?_⟩
          · exact List.mem_append.mpr (Or.inr (hmem.1 hs))
          · obtain ⟨fl, hfl, hmems⟩ := hmem.2 hs
            exact ⟨fl, hfl, fun t ht => List.mem_append.mpr (Or.inr (hmems t ht))⟩

/-- Write provenance lifted to the whole reduce/accept phase: no write is
a shift, and a reduce write's cell and value name a complete item of the
state the cell's index designates, with a non-start left-hand side. -/
theorem reduceWrites_prov {g : Grammar} {terms' : List Sym} {start : Sym} {folF : Nat} :
    ∀ (states : List (List Item)) (k : Nat) (ws : List ((Nat × Sym) × Action)),
      reduceWrites g terms' start folF k states = some ws →
      ∀ w ∈ ws, (∀ d, w.2 ≠ Action.shift d) ∧
        ∃ j, j < states.length ∧ w.1.1 = k + j ∧
          ∀ A α, w.2 = Action.reduce A α →
            A ≠ start ∧ Item.mk A α α.length ∈ states.getD j [] := by
  intro states
  induction states with
  | nil =>
    intro k ws h w hw
    rw [← Option.some.inj h] at hw
    cases hw
  | cons S rest ih =>
    intro k ws h w hw
    rw [reduceWrites] at h
    cases hw1 : stateWrites g terms' start folF k S with
    | none => rw [hw1] at h; cases h
    | some w1 =>
      rw [hw1] at h
      cases hw2 : reduceWrites g terms' start folF (k + 1) rest with
      | none => rw [hw2] at h; cases h
      | some w2 =>
        rw [hw2] at h
        have hws : w1 ++ w2 = ws := Option.some.inj h
        subst hws
        rcases List.mem_append.mp hw with hm | hm
        · have := @swFold_prov g terms' start folF k S S [] w1 hw1 (fun x hx => hx) w hm
          rcases this with hc | ⟨hcell, hshift, hred⟩
          · cases hc
          · refine ⟨hshift, 0, Nat.succ_pos _, by rw [hcell, Nat.add_zero], ?_⟩
            intro A α hr
            exact hred A α hr
        · obtain ⟨hshift, j', hj', hcell, hred⟩ := ih (k + 1) w2 hw2 w hm
          refine ⟨hshift, j' + 1, by simpa using hj', by omega, ?_⟩
          intro A α hr
          exact hred A α hr

/-- Unfolding `items` when it succeeds: the initial state is the closure
of the start item, the breadth-first loop finished with `st`, the
reduce/accept write list is `ws`, and the result's action table is the
write list applied over the loop's shift actions. -/
theorem items_inversion {g : Grammar} {nts terms : List Sym} {start : Sym}
    {bfsF folF : Nat} {T : Tables}
    (h : items g nts terms start bfsF folF = some T) :
    ∃ p0 ps st ws,
      prods g start = p0 :: ps ∧
      bfsFuel g nts (terms ++ ["$"]) bfsF
        (BuildSt.mk [closure g nts [Item.mk start p0 0]]
          [closure g nts [Item.mk start p0 0]] [] []) = some st ∧
      reduceWrites g (terms ++ ["$"]) start folF 0 st.states = some ws ∧
      T = Tables.mk st.states (applyWrites ws st.action) st.gotoT := by
  unfold items at h
  cases hp : prods g start with
  | nil => rw [hp] at h; cases h
  | cons p0 ps =>
    rw [hp] at h
    simp only [] at h
    cases hb : bfsFuel g nts (terms ++ ["$"]) bfsF
        (BuildSt.mk [closure g nts [Item.mk start p0 0]]
          [closure g nts [Item.mk start p0 0]] [] []) with
    | none => rw [hb] at h; cases h
    | some st =>
      rw [hb] at h
      simp only [] at h
      cases hr : reduceWrites g (terms ++ ["$"]) start folF 0 st.states with
      | none => rw [hr] at h; cases h
      | some ws =>
        rw [hr] at h
        exact ⟨p0, ps, st, ws, rfl, hb, hr, (Option.some.inj h).symm⟩

/-- C2: the table-compilation postcondition. When `items` succeeds, there
is a write list `ws` (the reduce/accept phase's writes, in computation
order) such that (a) every complete item of every state contributed its
prescribed writes — `accept` at `(state, $)` when the left-hand side is
the augmented start symbol, otherwise `reduce (lhs, rhs)` at `(state, t)`
for every terminal `t` of `FOLLOW(lhs)` — and (b) each final action-table
cell holds exactly the later-computed action: the LAST write of `ws`
targeting that cell, or the breadth-first phase's shift entry if no
reduce/accept write targets it. No error is ever raised on a conflicting
cell: `applyWrites` is total and simply overwrites. -/
theorem c2_reduce_accept_postcondition (g : Grammar) (nts terms : List Sym)
    (start : Sym) (bfsF folF : Nat) (T : Tables)
    (h : items g nts terms start bfsF folF = some T) :
    ∃ (st : BuildSt) (ws : List ((Nat × Sym) × Action)),
      reduceWrites g (terms ++ ["$"]) start folF 0 st.states = some ws ∧
      T.states = st.states ∧ T.action = applyWrites ws st.action ∧
      (∀ j, j < st.states.length → ∀ it ∈ st.states.getD j [],
        it.dot = it.rhs.length →
        (it.lhs = start → ((j, "$"), Action.accept) ∈ ws) ∧
        (it.lhs ≠ start → ∃ fl, follow g (terms ++ ["$"]) start folF it.lhs = some fl ∧
          ∀ t ∈ fl, ((j, t), Action.reduce it.lhs it.rhs) ∈ ws)) ∧
      (∀ j t, lookupCell T.action j t =
        match (ws.filter fun w => decide (w.1 = (j, t))).getLast? with
        | some w => some w.2
        | none => lookupCell st.action j t) := by
  obtain ⟨p0, ps, st, ws, _hp, _hb, hr, hT⟩ := items_inversion h
  subst hT
  refine ⟨st, ws, hr, rfl, rfl, ?_, ?_⟩
  · intro j hj it hit hdot
    have := reduceWrites_mem st.states 0 ws hr j hj it hit hdot
    simpa using this
  · intro j t
    exact lookupCell_applyWrites ws st.action j t

/-- Witness for C2 on the embedded example grammar: the build succeeds
and hence satisfies the postcondition. -/
theorem c2_reduce_accept_postcondition_witness :
    items egGrammar egNts egTerminals egStart 50 10 = some egT ∧
      (∃ (st : BuildSt) (ws : List ((Nat × Sym) × Action)),
        reduceWrites egGrammar (egTerminals ++ ["$"]) egStart 10 0 st.states = some ws ∧
        egT.states = st.states ∧ egT.action = applyWrites ws st.action ∧
        (∀ j, j < st.states.length → ∀ it ∈ st.states.getD j [],
          it.dot = it.rhs.length →
          (it.lhs = egStart → ((j, "$"), Action.accept) ∈ ws) ∧
          (it.lhs ≠ egStart → ∃ fl,
            follow egGrammar (egTerminals ++ ["$"]) egStart 10 it.lhs = some fl ∧
            ∀ t ∈ fl, ((j, t), Action.reduce it.lhs it.rhs) ∈ ws)) ∧
        (∀ j t, lookupCell egT.action j t =
          match (ws.filter fun w => decide (w.1 = (j, t))).getLast? with
          | some w => some w.2
          | none => lookupCell st.action j t)) :=
  ⟨by decide,
    c2_reduce_accept_postcondition egGrammar egNts egTerminals egStart 50 10 egT
      (by decide)⟩

theorem setEqItems_mem {a b : List Item} (h : setEqItems a b = true) {x : Item} :
    x ∈ a ↔ x ∈ b := by
  unfold setEqItems at h
  rw [Bool.and_eq_true, List.all_eq_true, List.all_eq_true] at h
  constructor
  · intro hx
    exact of_decide_eq_true (h.1 x hx)
  · intro hx
    exact of_decide_eq_true (h.2 x hx)

theorem setEqItems_refl (a : List Item) : setEqItems a a = true := by
  unfold setEqItems
  simp only [Bool.and_eq_true, List.all_eq_true]
  exact ⟨fun x hx => decide_eq_true hx, fun x hx => decide_eq_true hx⟩

theorem setEqItems_of_iff {a b : List Item} (h : ∀ x, x ∈ a ↔ x ∈ b) :
    setEqItems a b = true := by
  unfold setEqItems
  simp only [Bool.and_eq_true, List.all_eq_true]
  exact ⟨fun x hx => decide_eq_true ((h x).mp hx),
    fun x hx => decide_eq_true ((h x).mpr hx)⟩

theorem findStateAux_spec :
    ∀ (states : List (List Item)) (p : List Item) (k j : Nat),
      findStateAux states p k = some j →
      ∃ m, m < states.length ∧ j = k + m ∧
        setEqItems (states.getD m []) p = true ∧
        ∀ m', m' < m → setEqItems (states.getD m' []) p = false := by
  intro states
  induction states with
  | nil => intro p k j h; cases h
  | cons S rest ih =>
    intro p k j h
    unfold findStateAux at h
    by_cases hS : setEqItems S p = true
    · rw [if_pos hS] at h
      have hk := Option.some.inj h
      subst hk
      refine ⟨0, Nat.succ_pos _, by omega, ?_, fun m' hm' => absurd hm' (Nat.not_lt_zero m')⟩
      simpa using hS
    · rw [if_neg (by simpa using hS)] at h
      obtain ⟨m, hm, hj, hset, hfirst⟩ := ih p (k + 1) j h
      refine ⟨m + 1, by simpa using hm, by omega, hset, ?_⟩
      intro m' hm'
      cases m' with
      | zero =>
        simp only [List.getD_cons_zero]
        exact Bool.eq_false_iff.mpr hS
      | succ m'' => exact hfirst m'' (by omega)

theorem findState_spec {states : List (List Item)} {p : List Item} {j : Nat}
    (h : findState states p = some j) :
    j < states.length ∧ setEqItems (states.getD j []) p = true ∧
      ∀ m', m' < j → setEqItems (states.getD m' []) p = false := by
  obtain ⟨m, hm, hj, hset, hfirst⟩ := findStateAux_spec states p 0 j h
  have : j = m := by omega
  subst this
  exact ⟨hm, hset, hfirst⟩

theorem findState_none :
    ∀ {states : List (List Item)} {p : List Item},
      findState states p = none → ∀ i, i < states.length →
        setEqItems (states.getD i []) p = false := by
  suffices haux : ∀ (states : List (List Item)) (p : List Item) (k : Nat),
      findStateAux states p k = none → ∀ i, i < states.length →
        setEqItems (states.getD i []) p = false by
    intro states p h i hi
    exact haux states p 0 h i hi
  intro states
  induction states with
  | nil => intro p k h i hi; exact absurd hi (Nat.not_lt_zero i)
  | cons S rest ih =>
    intro p k h i hi
    unfold findStateAux at h
    by_cases hS : setEqItems S p = true
    · rw [if_pos hS] at h; cases h
    · rw [if_neg (by simpa using hS)] at h
      cases i with
      | zero => exact Bool.eq_false_iff.mpr hS
      | succ i' => exact ih p (k + 1) h i' (by simpa using hi)

theorem getD_mem {l : List (List Item)} {i : Nat} (hi : i < l.length) :
    l.getD i [] ∈ l := by
  rw [List.getD_eq_getElem l [] hi]
  exact List.getElem_mem hi

theorem getD_append_left {l t : List (List Item)} {i : Nat} (hi : i < l.length) :
    (l ++ t).getD i [] = l.getD i [] := by
  rw [List.getD_eq_getElem l [] hi,
    List.getD_eq_getElem (l ++ t) [] (by rw [List.length_append]; omega)]
  exact List.getElem_append_left hi

/-- With pairwise set-distinct states, the index `state_mapping` returns
for a state that is literally stored is that state's own position. -/
theorem findState_of_mem {states : List (List Item)} {p : List Item} {k j : Nat}
    (hdis : ∀ i j, i < j → j < states.length →
      setEqItems (states.getD i []) (states.getD j []) = false)
    (hk : k < states.length) (hkp : states.getD k [] = p)
    (h : findState states p = some j) : j = k ∧ states.getD j [] = p := by
  obtain ⟨hj, hset, hfirst⟩ := findState_spec h
  rcases Nat.lt_trichotomy j k with hlt | heq | hgt
  · -- an earlier set-equal state contradicts distinctness
    have := hdis j k hlt hk
    rw [hkp] at this
    rw [this] at hset
    cases hset
  · subst heq
    exact ⟨rfl, hkp⟩
  · have := hfirst k hgt
    rw [hkp] at this
    rw [setEqItems_refl] at this
    cases this

theorem getD_concat_self (l : List (List Item)) (x : List Item) :
    (l ++ [x]).getD l.length [] = x := by
  induction l with
  | nil => rfl
  | cons a l ih =>
    rw [List.cons_append, List.length_cons, List.getD_cons_succ]
    exact ih

/-- Items of a `goto` result keep the grammar-production shape of the
source state's items. -/
theorem goto_good {g : Grammar} {nts : List Sym} {X : List Item} {s : Sym}
    (hX : ∀ it ∈ X, it.rhs ∈ prods g it.lhs) :
    ∀ it ∈ goto g nts X s, it.rhs ∈ prods g it.lhs := by
  intro it hit
  unfold goto at hit
  rcases closure_origin hit with hadv | ⟨_, _, hprod, _⟩
  · rw [List.mem_map] at hadv
    obtain ⟨src, hsrc, rfl⟩ := hadv
    exact hX src (List.mem_filter.mp hsrc).1
  · exact hprod

/-- A non-empty `goto` has a source item with the dot before the symbol. -/
theorem goto_ne_nil_src {g : Grammar} {nts : List Sym} {X : List Item} {s : Sym}
    (h : goto g nts X s ≠ []) :
    ∃ src ∈ X, src.active = true ∧ src.next = s := by
  unfold goto at h
  cases hadv : (X.filter fun it => it.active && decide (it.next = s)).map
      (fun it => Item.mk it.lhs it.rhs (it.dot + 1)) with
  | nil =>
    rw [hadv, closure_nil] at h
    exact absurd rfl h
  | cons a t =>
    have ha : a ∈ (X.filter fun it => it.active && decide (it.next = s)).map
        (fun it => Item.mk it.lhs it.rhs (it.dot + 1)) := by
      rw [hadv]; exact List.mem_cons_self _ _
    rw [List.mem_map] at ha
    obtain ⟨src, hsrc, _⟩ := ha
    have := List.mem_filter.mp hsrc
    rw [Bool.and_eq_true, decide_eq_true_eq] at this
    exact ⟨src, this.1, this.2.1, this.2.2⟩

/-- The breadth-first loop's structural invariant: states are non-empty
lists of items of grammar productions, pairwise distinct as sets; queue
members are stored states; each action entry is a shift edge and each
goto entry an edge, with in-range endpoints whose target state equals (as
a set) the `goto` of its source state on the edge's symbol. -/
structure BfsCore (g : Grammar) (nts : List Sym) (st : BuildSt) : Prop where
  ne : ∀ S ∈ st.states, S ≠ []
  good : ∀ S ∈ st.states, ∀ it ∈ S, it.rhs ∈ prods g it.lhs
  qsub : ∀ q ∈ st.queue, q ∈ st.states
  distinct : ∀ i j, i < j → j < st.states.length →
    setEqItems (st.states.getD i []) (st.states.getD j []) = false
  act_ok : ∀ e ∈ cellEntries st.action, ∃ d, e.2 = Action.shift d ∧
    d < st.states.length ∧ e.1.1 < st.states.length ∧
    setEqItems (st.states.getD d []) (goto g nts (st.states.getD e.1.1 []) e.1.2) = true
  got_ok : ∀ e ∈ cellEntries st.gotoT, e.2 < st.states.length ∧
    e.1.1 < st.states.length ∧
    setEqItems (st.states.getD e.2 []) (goto g nts (st.states.getD e.1.1 []) e.1.2) = true

/-- What one `stepSymbol` does, structurally: it preserves the core
invariant, only appends to states and queue, puts any new state into the
queue, preserves existing table entries, and leaves an edge entry at
`(stIdx, sym)` whenever the goto set is non-empty. -/
theorem stepSymbol_spec {g : Grammar} {nts terms' : List Sym} {stIdx : Nat}
    {p : List Item} {st : BuildSt} {sym : Sym}
    (hinv : BfsCore g nts st) (hIdx : stIdx < st.states.length)
    (hp : st.states.getD stIdx [] = p) :
    ∀ st', st' = stepSymbol g nts terms' stIdx p st sym →
      BfsCore g nts st' ∧
      (∃ tail, st'.states = st.states ++ tail) ∧
      (∃ qt, st'.queue = st.queue ++ qt) ∧
      (∀ i, st.states.length ≤ i → i < st'.states.length →
        st'.states.getD i [] ∈ st'.queue) ∧
      (∀ i X, (∃ a, lookupCell st.action i X = some a) →
        ∃ a, lookupCell st'.action i X = some a) ∧
      (∀ i X, (∃ m, lookupCell st.gotoT i X = some m) →
        ∃ m, lookupCell st'.gotoT i X = some m) ∧
      (goto g nts p sym ≠ [] →
        (sym ∈ terms' → ∃ a, lookupCell st'.action stIdx sym = some a) ∧
        (sym ∉ terms' → ∃ m, lookupCell st'.gotoT stIdx sym = some m)) := by
  intro st' hst'
  unfold stepSymbol at hst'
  simp only [] at hst'
  by_cases hnxt : goto g nts p sym = []
  · rw [if_pos hnxt] at hst'
    subst hst'
    refine ⟨hinv, ⟨[], (List.append_nil _).symm⟩, ⟨[], (List.append_nil _).symm⟩,
      ?_, fun i X h => h, fun i X h => h, fun hne => absurd hnxt hne⟩
    intro i hi1 hi2
    omega
  · rw [if_neg hnxt] at hst'
    cases hfind : findState st.states (goto g nts p sym) with
    | some j =>
      rw [hfind] at hst'
      simp only [] at hst'
      obtain ⟨hjlt, hjset, _⟩ := findState_spec hfind
      by_cases hterm : sym ∈ terms'
      · rw [if_pos hterm] at hst'
        subst hst'
        refine ⟨?_, ⟨[], (List.append_nil _).symm⟩, ⟨[], (List.append_nil _).symm⟩,
          ?_, ?_, fun i X h => h, fun _ => ⟨fun _ => ?_, fun habs => absurd hterm habs⟩⟩
        · refine ⟨hinv.ne, hinv.good, hinv.qsub, hinv.distinct, ?_, hinv.got_ok⟩
          intro e he
          rcases cellEntries_setCell he with rfl | he'
          · exact ⟨j, rfl, hjlt, hIdx, by rw [hp]; exact hjset⟩
          · exact hinv.act_ok e he'
        · intro i hi1 hi2
          simp only [] at hi2
          omega
        · intro i X ⟨a, ha⟩
          rw [lookupCell_setCell]
          by_cases hk : stIdx = i ∧ sym = X
          · rw [if_pos hk]
            exact ⟨_, rfl⟩
          · rw [if_neg hk]
            exact ⟨a, ha⟩
        · rw [lookupCell_setCell, if_pos ⟨rfl, rfl⟩]
          exact ⟨_, rfl⟩
      · rw [if_neg hterm] at hst'
        subst hst'
        refine ⟨?_, ⟨[], (List.append_nil _).symm⟩, ⟨[], (List.append_nil _).symm⟩,
          ?_, fun i X h => h, ?_, fun _ => ⟨fun habs => absurd habs hterm, fun _ => ?_⟩⟩
        · refine ⟨hinv.ne, hinv.good, hinv.qsub, hinv.distinct, hinv.act_ok, ?_⟩
          intro e he
          rcases cellEntries_setCell he with rfl | he'
          · exact ⟨hjlt, hIdx, by rw [hp]; exact hjset⟩
          · exact hinv.got_ok e he'
        · intro i hi1 hi2
          simp only [] at hi2
          omega
        · intro i X ⟨m, hm⟩
          rw [lookupCell_setCell]
          by_cases hk : stIdx = i ∧ sym = X
          · rw [if_pos hk]
            exact ⟨_, rfl⟩
          · rw [if_neg hk]
            exact ⟨m, hm⟩
        · rw [lookupCell_setCell, if_pos ⟨rfl, rfl⟩]
          exact ⟨_, rfl⟩
    | none =>
      rw [hfind] at hst'
      simp only [] at hst'
      have hnew := findState_none hfind
      have hlen' : (st.states ++ [goto g nts p sym]).length = st.states.length + 1 := by
        rw [List.length_append]; rfl
      have hgetold : ∀ i, i < st.states.length →
          (st.states ++ [goto g nts p sym]).getD i [] = st.states.getD i [] :=
        fun i hi => getD_append_left hi
      have hgetnew : (st.states ++ [goto g nts p sym]).getD st.states.length [] =
          goto g nts p sym := getD_concat_self _ _
      have hcore : BfsCore g nts (BuildSt.mk (st.states ++ [goto g nts p sym])
          (st.queue ++ [goto g nts p sym]) st.action st.gotoT) := by
        refine ⟨?_, ?_, ?_, ?_, ?_, ?_⟩ <;> simp only []
        · intro S hS
          rcases List.mem_append.mp hS with hS | hS
          · exact hinv.ne S hS
          · rw [List.mem_singleton] at hS
            subst hS
            exact hnxt
        · intro S hS
          rcases List.mem_append.mp hS with hS | hS
          · exact hinv.good S hS
          · rw [List.mem_singleton] at hS
            subst hS
            exact goto_good (hinv.good p (hp ▸ getD_mem hIdx))
        · intro q hq
          rcases List.mem_append.mp hq with hq | hq
          · exact List.mem_append.mpr (Or.inl (hinv.qsub q hq))
          · exact List.mem_append.mpr (Or.inr hq)
        · intro i j hij hj
          rw [hlen'] at hj
          by_cases hjold : j < st.states.length
          · rw [hgetold i (by omega), hgetold j hjold]
            exact hinv.distinct i j hij hjold
          · have : j = st.states.length := by omega
            subst this
            rw [hgetold i (by omega), hgetnew]
            exact hnew i (by omega)
        · intro e he
          obtain ⟨d, hd, hdlt, helt, hset⟩ := hinv.act_ok e he
          refine ⟨d, hd, by omega, by omega, ?_⟩
          rw [hgetold d hdlt, hgetold e.1.1 helt]
          exact hset
        · intro e he
          obtain ⟨hdlt, helt, hset⟩ := hinv.got_ok e he
          refine ⟨by omega, by omega, ?_⟩
          rw [hgetold e.2 hdlt, hgetold e.1.1 helt]
          exact hset
      by_cases hterm : sym ∈ terms'
      · rw [if_pos hterm] at hst'
        subst hst'
        refine ⟨?_, ⟨[goto g nts p sym], rfl⟩, ⟨[goto g nts p sym], rfl⟩,
          ?_, ?_, fun i X h => h, fun _ => ⟨fun _ => ?_, fun habs => absurd hterm habs⟩⟩
        · refine ⟨hcore.ne, hcore.good, hcore.qsub, hcore.distinct, ?_, hcore.got_ok⟩
          intro e he
          rcases cellEntries_setCell he with rfl | he'
          · refine ⟨st.states.length, rfl, by simp only []; omega,
              by simp only []; omega, ?_⟩
            simp only []
            rw [hgetnew, hgetold stIdx hIdx, hp]
            exact setEqItems_refl _
          · exact hcore.act_ok e he'
        · intro i hi1 hi2
          simp only [] at hi2
          rw [hlen'] at hi2
          have : i = st.states.length := by omega
          subst this
          rw [hgetnew]
          exact List.mem_append.mpr (Or.inr (List.mem_singleton.mpr rfl))
        · intro i X ⟨a, ha⟩
          rw [lookupCell_setCell]
          by_cases hk : stIdx = i ∧ sym = X
          · rw [if_pos hk]
            exact ⟨_, rfl⟩
          · rw [if_neg hk]
            exact ⟨a, ha⟩
        · rw [lookupCell_setCell, if_pos ⟨rfl, rfl⟩]
          exact ⟨_, rfl⟩
      · rw [if_neg hterm] at hst'
        subst hst'
        refine ⟨?_, ⟨[goto g nts p sym], rfl⟩, ⟨[goto g nts p sym], rfl⟩,
          ?_, fun i X h => h, ?_, fun _ => ⟨fun habs => absurd habs hterm, fun _ => ?_⟩⟩
        · refine ⟨hcore.ne, hcore.good, hcore.qsub, hcore.distinct, hcore.act_ok, ?_⟩
          intro e he
          rcases cellEntries_setCell he with rfl | he'
          · refine ⟨by simp only []; omega, by simp only []; omega, ?_⟩
            simp only []
            rw [hgetnew, hgetold stIdx hIdx, hp]
            exact setEqItems_refl _
          · exact hcore.got_ok e he'
        · intro i hi1 hi2
          simp only [] at hi2
          rw [hlen'] at hi2
          have : i = st.states.length := by omega
          subst this
          rw [hgetnew]
          exact List.mem_append.mpr (Or.inr (List.mem_singleton.mpr rfl))
        · intro i X ⟨m, hm⟩
          rw [lookupCell_setCell]
          by_cases hk : stIdx = i ∧ sym = X
          · rw [if_pos hk]
            exact ⟨_, rfl⟩
          · rw [if_neg hk]
            exact ⟨m, hm⟩
        · rw [lookupCell_setCell, if_pos ⟨rfl, rfl⟩]
          exact ⟨_, rfl⟩

/-- `processState` (the full symbol loop of one popped state): composes
`stepSymbol_spec` over the symbol list, and afterwards every symbol with
a non-empty goto from `p` has its edge entry recorded at `stIdx`. -/
theorem processState_spec {g : Grammar} {nts terms' : List Sym} {stIdx : Nat}
    {p : List Item} :
    ∀ (syms : List Sym) (st : BuildSt),
      BfsCore g nts st → stIdx < st.states.length → st.states.getD stIdx [] = p →
      ∀ st', st' = processState g nts terms' stIdx p syms st →
        BfsCore g nts st' ∧
        (∃ tail, st'.states = st.states ++ tail) ∧
        (∃ qt, st'.queue = st.queue ++ qt) ∧
        (∀ i, st.states.length ≤ i → i < st'.states.length →
          st'.states.getD i [] ∈ st'.queue) ∧
        (∀ i X, (∃ a, lookupCell st.action i X = some a) →
          ∃ a, lookupCell st'.action i X = some a) ∧
        (∀ i X, (∃ m, lookupCell st.gotoT i X = some m) →
          ∃ m, lookupCell st'.gotoT i X = some m) ∧
        (∀ X ∈ syms, goto g nts p X ≠ [] →
          (X ∈ terms' → ∃ a, lookupCell st'.action stIdx X = some a) ∧
          (X ∉ terms' → ∃ m, lookupCell st'.gotoT stIdx X = some m)) := by
  intro syms
  induction syms with
  | nil =>
    intro st hinv hIdx hp st' hst'
    have : st' = st := hst'
    subst this
    exact ⟨hinv, ⟨[], (List.append_nil _).symm⟩, ⟨[], (List.append_nil _).symm⟩,
      fun i hi1 hi2 => absurd hi2 (by omega), fun i X h => h, fun i X h => h,
      fun X hX => absurd hX (List.not_mem_nil X)⟩
  | cons sym syms ih =>
    intro st hinv hIdx hp st' hst'
    have hst1 : processState g nts terms' stIdx p (sym :: syms) st =
        processState g nts terms' stIdx p syms (stepSymbol g nts terms' stIdx p st sym) := by
      unfold processState
      rw [List.foldl_cons]
    rw [hst1] at hst'
    obtain ⟨hinv1, ⟨t1, ht1⟩, ⟨q1, hq1⟩, hnewq1, hpera1, hperg1, hedge1⟩ :=
      stepSymbol_spec hinv hIdx hp _ rfl
    have hIdx1 : stIdx < (stepSymbol g nts terms' stIdx p st sym).states.length := by
      rw [ht1, List.length_append]
      omega
    have hp1 : (stepSymbol g nts terms' stIdx p st sym).states.getD stIdx [] = p := by
      rw [ht1, getD_append_left hIdx]
      exact hp
    obtain ⟨hinv2, ⟨t2, ht2⟩, ⟨q2, hq2⟩, hnewq2, hpera2, hperg2, hedge2⟩ :=
      ih _ hinv1 hIdx1 hp1 st' hst'
    refine ⟨hinv2, ⟨t1 ++ t2, by rw [ht2, ht1, List.append_assoc]⟩,
      ⟨q1 ++ q2, by rw [hq2, hq1, List.append_assoc]⟩, ?_, ?_, ?_, ?_⟩
    · intro i hi1 hi2
      by_cases hmid : i < (stepSymbol g nts terms' stIdx p st sym).states.length
      · have hmem := hnewq1 i hi1 hmid
        have hget : st'.states.getD i [] =
            (stepSymbol g nts terms' stIdx p st sym).states.getD i [] := by
          rw [ht2, getD_append_left hmid]
        rw [hget]
        rw [hq2]
        exact List.mem_append.mpr (Or.inl hmem)
      · exact hnewq2 i (by omega) hi2
    · exact fun i X h => hpera2 i X (hpera1 i X h)
    · exact fun i X h => hperg2 i X (hperg1 i X h)
    · intro X hX hgne
      rcases List.mem_cons.mp hX with rfl | hX'
      · have := hedge1 hgne
        exact ⟨fun ht => hpera2 stIdx X (this.1 ht), fun ht => hperg2 stIdx X (this.2 ht)⟩
      · exact hedge2 X hX' hgne

/-- State `i` has all its edges recorded: for every symbol of the loop's
symbol list whose goto set from state `i` is non-empty, the matching
table has an entry at `(i, symbol)`. -/
def EntriesFor (g : Grammar) (nts terms' : List Sym) (st : BuildSt) (i : Nat) : Prop :=
  ∀ X ∈ terms' ++ nts, goto g nts (st.states.getD i []) X ≠ [] →
    (X ∈ terms' → ∃ a, lookupCell st.action i X = some a) ∧
    (X ∉ terms' → ∃ m, lookupCell st.gotoT i X = some m)

/-- Every stored state is still enqueued or already fully processed. -/
def ProcOK (g : Grammar) (nts terms' : List Sym) (st : BuildSt) : Prop :=
  ∀ i, i < st.states.length →
    st.states.getD i [] ∈ st.queue ∨ EntriesFor g nts terms' st i

/-- Running the breadth-first loop to completion preserves the core
invariant, drains the queue, only appends states, and leaves every state
fully processed. -/
theorem bfsFuel_inv {g : Grammar} {nts terms' : List Sym} :
    ∀ (n : Nat) (st st' : BuildSt),
      BfsCore g nts st → ProcOK g nts terms' st →
      bfsFuel g nts terms' n st = some st' →
      BfsCore g nts st' ∧ st'.queue = [] ∧
      (∃ tail, st'.states = st.states ++ tail) ∧
      (∀ i, i < st'.states.length → EntriesFor g nts terms' st' i) := by
  intro n
  induction n with
  | zero =>
    intro st st' hinv hproc h
    rw [bfsFuel] at h
    by_cases hq : st.queue = []
    · rw [if_pos hq] at h
      have : st = st' := Option.some.inj h
      subst this
      refine ⟨hinv, hq, ⟨[], (List.append_nil _).symm⟩, ?_⟩
      intro i hi
      rcases hproc i hi with hmem | hent
      · rw [hq] at hmem
        cases hmem
      · exact hent
    · rw [if_neg hq] at h
      cases h
  | succ n ih =>
    intro st st' hinv hproc h
    rw [bfsFuel] at h
    cases hq : st.queue with
    | nil =>
      rw [hq] at h
      have : st = st' := Option.some.inj h
      subst this
      refine ⟨hinv, hq, ⟨[], (List.append_nil _).symm⟩, ?_⟩
      intro i hi
      rcases hproc i hi with hmem | hent
      · rw [hq] at hmem
        cases hmem
      · exact hent
    | cons p rest =>
      rw [hq] at h
      simp only [] at h
      have hpmem : p ∈ st.states := hinv.qsub p (by rw [hq]; exact List.mem_cons_self _ _)
      obtain ⟨k, hk, hgetk⟩ : ∃ k, k < st.states.length ∧ st.states.getD k [] = p := by
        rw [List.mem_iff_getElem] at hpmem
        obtain ⟨k, hk, hgetk⟩ := hpmem
        exact ⟨k, hk, by rw [List.getD_eq_getElem st.states [] hk]; exact hgetk⟩
      cases hfind : findState st.states p with
      | none =>
        have := findState_none hfind k hk
        rw [hgetk, setEqItems_refl] at this
        cases this
      | some stIdx =>
        rw [hfind] at h
        simp only [] at h
        obtain ⟨hik, hgetIdx⟩ := findState_of_mem hinv.distinct hk hgetk hfind
        subst hik
        have hinv1 : BfsCore g nts { st with queue := rest } :=
          ⟨hinv.ne, hinv.good,
            fun q hqm => hinv.qsub q (by rw [hq]; exact List.mem_cons_of_mem _ hqm),
            hinv.distinct, hinv.act_ok, hinv.got_ok⟩
        obtain ⟨hinv2, ⟨t2, ht2⟩, ⟨q2, hq2⟩, hnewq2, hpera2, hperg2, hedge2⟩ :=
          @processState_spec g nts terms' stIdx p (terms' ++ nts) { st with queue := rest }
            hinv1 hk hgetIdx _ rfl
        have hproc2 : ProcOK g nts terms'
            (processState g nts terms' stIdx p (terms' ++ nts) { st with queue := rest }) := by
          intro i hi
          by_cases hiold : i < st.states.length
          · have hgetst : (processState g nts terms' stIdx p (terms' ++ nts)
                { st with queue := rest }).states.getD i [] = st.states.getD i [] := by
              rw [ht2]
              exact getD_append_left hiold
            rcases hproc i hiold with hmem | hent
            · rw [hq] at hmem
              rcases List.mem_cons.mp hmem with heq | hmem'
              · -- this is the popped state: now processed
                have hieq : i = stIdx := by
                  by_contra hne
                  rcases Nat.lt_or_ge i stIdx with hlt | hge
                  · have := hinv.distinct i stIdx hlt hk
                    rw [heq, hgetk, setEqItems_refl] at this
                    cases this
                  · have hgt : stIdx < i := by omega
                    have := hinv.distinct stIdx i hgt hiold
                    rw [heq, hgetk, setEqItems_refl] at this
                    cases this
                subst hieq
                right
                intro X hX hgne
                rw [hgetst, hgetk] at hgne
                exact hedge2 X hX hgne
              · left
                rw [hgetst, hq2]
                exact List.mem_append.mpr (Or.inl hmem')
            · right
              intro X hX hgne
              rw [hgetst] at hgne
              have := hent X hX hgne
              exact ⟨fun ht => hpera2 i X (this.1 ht), fun ht => hperg2 i X (this.2 ht)⟩
          · left
            have hlenproj : ({ st with queue := rest } : BuildSt).states.length =
                st.states.length := rfl
            exact hnewq2 i (by omega) hi
        obtain ⟨hinvf, hqf, ⟨t3, ht3⟩, hentf⟩ := ih _ st' hinv2 hproc2 h
        refine ⟨hinvf, hqf, ⟨t2 ++ t3, ?_⟩, hentf⟩
        rw [ht3, ht2, List.append_assoc]

theorem mem_of_getLast_eq {α : Type} {l : List α} {a : α}
    (h : l.getLast? = some a) : a ∈ l := by
  obtain ⟨hne, heq⟩ := List.mem_getLast?_eq_getLast (Option.mem_def.mpr h)
  rw [heq]
  exact List.getLast_mem hne

/-- A shift in the final action table survives from the breadth-first
phase: the reduce/accept phase never writes a shift. -/
theorem lookup_final_shift {ws : List ((Nat × Sym) × Action)} {base : Outer Action}
    {j : Nat} {t : Sym} {d : Nat}
    (hws : ∀ w ∈ ws, ∀ d', w.2 ≠ Action.shift d')
    (h : lookupCell (applyWrites ws base) j t = some (Action.shift d)) :
    lookupCell base j t = some (Action.shift d) := by
  rw [lookupCell_applyWrites] at h
  cases hl : (ws.filter fun w => decide (w.1 = (j, t))).getLast? with
  | none =>
    rw [hl] at h
    exact h
  | some w =>
    rw [hl] at h
    have hwmem : w ∈ ws := (List.mem_filter.mp (mem_of_getLast_eq hl)).1
    have := hws w hwmem d
    rw [Option.some.inj h] at this
    exact absurd rfl this

/-- A reduce in the final action table comes from a reduce/accept-phase
write when the base table holds only shifts. -/
theorem lookup_final_reduce {ws : List ((Nat × Sym) × Action)} {base : Outer Action}
    {j : Nat} {t : Sym} {A : Sym} {α : List Sym}
    (hbase : ∀ e ∈ cellEntries base, ∃ d, e.2 = Action.shift d)
    (h : lookupCell (applyWrites ws base) j t = some (Action.reduce A α)) :
    ∃ w ∈ ws, w.1 = (j, t) ∧ w.2 = Action.reduce A α := by
  rw [lookupCell_applyWrites] at h
  cases hl : (ws.filter fun w => decide (w.1 = (j, t))).getLast? with
  | none =>
    rw [hl] at h
    obtain ⟨d, hd⟩ := hbase _ (lookupCell_mem h)
    cases hd
  | some w =>
    rw [hl] at h
    have hmf := List.mem_filter.mp (mem_of_getLast_eq hl)
    refine ⟨w, hmf.1, of_decide_eq_true hmf.2, Option.some.inj h⟩

/-- All the structure `items` leaves behind when it succeeds: the
breadth-first invariants on the final loop state, the drained queue, the
initial state at index 0, and the reduce/accept write list that the final
action table applies over the shift entries. -/
theorem items_invariants {g : Grammar} {nts terms : List Sym} {start : Sym}
    {bfsF folF : Nat} {T : Tables}
    (h : items g nts terms start bfsF folF = some T) :
    ∃ (st : BuildSt) (ws : List ((Nat × Sym) × Action)) (p0 : List Sym),
      reduceWrites g (terms ++ ["$"]) start folF 0 st.states = some ws ∧
      T = Tables.mk st.states (applyWrites ws st.action) st.gotoT ∧
      BfsCore g nts st ∧
      st.states.getD 0 [] = closure g nts [Item.mk start p0 0] ∧
      p0 ∈ prods g start ∧
      0 < st.states.length ∧
      (∀ i, i < st.states.length → EntriesFor g nts (terms ++ ["$"]) st i) := by
  obtain ⟨p0, ps, st, ws, hp, hb, hr, hT⟩ := items_inversion h
  have hs0ne : closure g nts [Item.mk start p0 0] ≠ [] :=
    List.ne_nil_of_mem (subset_closure (List.mem_singleton.mpr rfl))
  have hcore0 : BfsCore g nts (BuildSt.mk [closure g nts [Item.mk start p0 0]]
      [closure g nts [Item.mk start p0 0]] [] []) := by
    refine ⟨?_, ?_, ?_, ?_, ?_, ?_⟩ <;> simp only []
    · intro S hS
      rw [List.mem_singleton] at hS
      subst hS
      exact hs0ne
    · intro S hS
      rw [List.mem_singleton] at hS
      subst hS
      intro it hit
      rcases closure_origin hit with hinit | ⟨_, _, hprod, _⟩
      · rw [List.mem_singleton] at hinit
        subst hinit
        rw [hp]
        exact List.mem_cons_self _ _
      · exact hprod
    · intro q hq
      exact hq
    · intro i j hij hj
      simp only [List.length_singleton] at hj
      omega
    · intro e he
      cases he
    · intro e he
      cases he
  have hproc0 : ProcOK g nts (terms ++ ["$"]) (BuildSt.mk
      [closure g nts [Item.mk start p0 0]] [closure g nts [Item.mk start p0 0]] [] []) := by
    intro i hi
    simp only [List.length_singleton] at hi
    have : i = 0 := by omega
    subst this
    left
    exact List.mem_singleton.mpr rfl
  obtain ⟨hinvf, _hqf, ⟨tail, htail⟩, hentf⟩ :=
    bfsFuel_inv bfsF _ st hcore0 hproc0 hb
  simp only [] at htail
  refine ⟨st, ws, p0, hr, hT, hinvf, ?_, by rw [hp]; exact List.mem_cons_self _ _, ?_, hentf⟩
  · rw [htail]
    rfl
  · rw [htail]
    simp

/-- C6 counterexample: the claim is false as stated. In the example
grammar's automaton, state 3 (the state of the complete item `S' → S .`)
has no outgoing edge on the end marker — `goto` of it on `$` is empty —
yet looking up `(3, $)` in the action table yields the `accept` action,
not "no entry": reduce/accept actions live precisely at cells without
outgoing edges. -/
theorem c6_counterexample_accept_without_edge :
    items egGrammar egNts egTerminals egStart 50 10 = some egT ∧
      goto egGrammar egNts (egT.states.getD 3 []) "$" = [] ∧
      lookupCell egT.action 3 "$" = some Action.accept := by
  refine ⟨by decide, by decide, by decide⟩

/-- C6 amended: for every state `i` and grammar symbol `X` with no
outgoing edge (`goto` of state `i` on `X` empty), the goto table has no
entry at `(i, X)` and the action table never holds a spurious SHIFT there
— only reduce/accept actions installed from complete items can occupy
such cells (and do, which is what the counterexample exhibits). -/
theorem c6_no_edge_no_entry (g : Grammar) (nts terms : List Sym) (start : Sym)
    (bfsF folF : Nat) (T : Tables) (h : items g nts terms start bfsF folF = some T)
    (i : Nat) (X : Sym)
    (hempty : goto g nts (T.states.getD i []) X = []) :
    lookupCell T.gotoT i X = none ∧
      ∀ d, lookupCell T.action i X ≠ some (Action.shift d) := by
  obtain ⟨st, ws, p0, hr, hT, hinv, _, _, _, _⟩ := items_invariants h
  subst hT
  simp only [] at hempty ⊢
  constructor
  · cases hg : lookupCell st.gotoT i X with
    | none => rfl
    | some m =>
      obtain ⟨hmlt, _hilt, hset⟩ := hinv.got_ok _ (lookupCell_mem hg)
      rw [hempty] at hset
      have hm := hinv.ne _ (getD_mem hmlt)
      have hnil : st.states.getD m [] = [] := by
        rw [List.eq_nil_iff_forall_not_mem]
        intro x hx
        exact absurd ((setEqItems_mem hset).mp hx) (List.not_mem_nil x)
      exact absurd hnil hm
  · intro d hd
    have hws : ∀ w ∈ ws, ∀ d', w.2 ≠ Action.shift d' :=
      fun w hw d' => (reduceWrites_prov st.states 0 ws hr w hw).1 d'
    have hshift := lookup_final_shift hws hd
    obtain ⟨d', hd', hdlt, _hilt, hset⟩ := hinv.act_ok _ (lookupCell_mem hshift)
    rw [hempty] at hset
    have hm := hinv.ne _ (getD_mem hdlt)
    have hnil : st.states.getD d' [] = [] := by
      rw [List.eq_nil_iff_forall_not_mem]
      intro x hx
      exact absurd ((setEqItems_mem hset).mp hx) (List.not_mem_nil x)
    exact absurd hnil hm

/-- Witness for the amended C6 at the example grammar: state 0 has no
edge on the end marker, and indeed neither table has an entry there. -/
theorem c6_no_edge_no_entry_witness :
    lookupCell egT.gotoT 0 "$" = none ∧
      lookupCell egT.action 0 "$" ≠ some (Action.shift 1) :=
  ⟨(c6_no_edge_no_entry egGrammar egNts egTerminals egStart 50 10 egT (by decide)
      0 "$" (by decide)).1,
    (c6_no_edge_no_entry egGrammar egNts egTerminals egStart 50 10 egT (by decide)
      0 "$" (by decide)).2 1⟩

theorem getDefault_mem {α : Type} {l : List α} {i : Nat} (d : α) (hi : i < l.length) :
    l.getD i d ∈ l := by
  rw [List.getD_eq_getElem l d hi]
  exact List.getElem_mem hi

/-- If no right-hand side of the grammar contains the end marker, the
final action table holds no shift under `$`. -/
theorem no_shift_on_dollar {g : Grammar} {nts terms : List Sym} {start : Sym}
    {bfsF folF : Nat} {T : Tables} (h : items g nts terms start bfsF folF = some T)
    (hds : ∀ e ∈ g, ∀ p ∈ e.2, "$" ∉ p) :
    ∀ i d, lookupCell T.action i "$" ≠ some (Action.shift d) := by
  obtain ⟨st, ws, p0, hr, hT, hinv, _, _, _, _⟩ := items_invariants h
  subst hT
  intro i d hd
  simp only [] at hd
  have hws : ∀ w ∈ ws, ∀ d', w.2 ≠ Action.shift d' :=
    fun w hw d' => (reduceWrites_prov st.states 0 ws hr w hw).1 d'
  have hshift := lookup_final_shift hws hd
  obtain ⟨d', _hd', hdlt, hilt, hset⟩ := hinv.act_ok _ (lookupCell_mem hshift)
  -- the target state is non-empty, so the goto set on `$` is non-empty
  have hne := hinv.ne _ (getD_mem hdlt)
  have hgne : goto g nts (st.states.getD i []) "$" ≠ [] := by
    intro hnil
    rw [hnil] at hset
    apply hne
    rw [List.eq_nil_iff_forall_not_mem]
    intro x hx
    exact absurd ((setEqItems_mem hset).mp hx) (List.not_mem_nil x)
  obtain ⟨src, hsrc, hact, hnext⟩ := goto_ne_nil_src hgne
  have hgood := hinv.good _ (getD_mem hilt) src hsrc
  have hpne : prods g src.lhs ≠ [] := fun hnil => by
    rw [hnil] at hgood
    exact absurd hgood (List.not_mem_nil _)
  have hdollar := hds _ (prods_mem hpne) src.rhs hgood
  unfold Item.active at hact
  rw [decide_eq_true_eq] at hact
  apply hdollar
  rw [← hnext]
  exact getDefault_mem "" hact

theorem getD_append_dollar (input : List Sym) :
    (input ++ ["$"]).getD input.length "" = "$" := by
  induction input with
  | nil => rfl
  | cons a l ih =>
    rw [List.cons_append, List.length_cons, List.getD_cons_succ]
    exact ih

/-- With no shift possible under the end marker, the parse cursor never
leaves the input: the driver only advances on a shift, a shift's symbol
is never `$`, and the appended `$` is the last element, so the index
stays strictly inside the input and `input_string[index]` is in bounds. -/
theorem parseFuel_no_overrun {A : Outer Action}
    (hnoshift : ∀ i d, lookupCell A i "$" ≠ some (Action.shift d)) :
    ∀ (n : Nat) (act : Outer Action) (got : Outer Nat) (stack : List StackEntry)
      (input : List Sym) (idx : Nat) (res : ParseOutcome × Outer Action × Outer Nat),
      (∀ i s, lookupCell act i s = lookupCell A i s) →
      input.getD (input.length - 1) "" = "$" →
      idx < input.length →
      parseFuel act got n stack input idx = some res →
      res.1 ≠ ParseOutcome.overrun := by
  intro n
  induction n with
  | zero => intro act got stack input idx res _ _ _ h; cases h
  | succ n ih =>
    intro act got stack input idx res hpres hlast hidx h
    match stack, h with
    | [], h =>
      have h2 := Option.some.inj h
      rw [← h2]
      intro hc
      cases hc
    | StackEntry.sym x :: rest, h =>
      have h2 := Option.some.inj h
      rw [← h2]
      intro hc
      cases hc
    | StackEntry.state st :: rest, h =>
      rw [parseFuel, if_pos hidx] at h
      simp only [] at h
      split at h
      · have h2 := Option.some.inj h
        rw [← h2]
        intro hc
        cases hc
      · -- shift: the shifted symbol cannot be the end marker
        next dest hl =>
        have hlA : lookupCell A st (input.getD idx "") = some (Action.shift dest) := by
          rw [← hpres st (input.getD idx "")]
          rw [← hl, lookupCell_touchOuter]
        have hcur : input.getD idx "" ≠ "$" := by
          intro hc
          rw [hc] at hlA
          exact hnoshift st dest hlA
        have hidx' : idx + 1 < input.length := by
          rcases Nat.lt_or_ge (idx + 1) input.length with hlt | hge
          · exact hlt
          · exfalso
            have : idx = input.length - 1 := by omega
            rw [this] at hcur
            exact hcur hlast
        exact ih _ _ _ _ _ _
          (fun i s => by rw [lookupCell_touchOuter]; exact hpres i s) hlast hidx' h
      · -- reduce: the cursor does not move
        split at h
        · split at h
          · split at h
            · have h2 := Option.some.inj h
              rw [← h2]
              intro hc
              cases hc
            · exact ih _ _ _ _ _ _
                (fun i s => by rw [lookupCell_touchOuter]; exact hpres i s) hlast hidx h
          · have h2 := Option.some.inj h
            rw [← h2]
            intro hc
            cases hc
        · have h2 := Option.some.inj h
          rw [← h2]
          intro hc
          cases hc
      · have h2 := Option.some.inj h
        rw [← h2]
        intro hc
        cases hc

/-- C10: for a grammar whose right-hand sides never contain the end
marker `$`, no action-table cell holds a shift under `$`, and therefore
no `parse` call ever reads the input out of bounds (the `overrun`
outcome, Python's `IndexError` on `input_string[index]`, is impossible). -/
theorem c10_no_dollar_shift_no_overrun (g : Grammar) (nts terms : List Sym)
    (start : Sym) (bfsF folF : Nat) (T : Tables)
    (h : items g nts terms start bfsF folF = some T)
    (hds : ∀ e ∈ g, ∀ p ∈ e.2, "$" ∉ p) :
    (∀ i d, lookupCell T.action i "$" ≠ some (Action.shift d)) ∧
      ∀ (input : List Sym) (fuel : Nat) (res : ParseOutcome × Outer Action × Outer Nat),
        parse T.action T.gotoT input fuel = some res →
        res.1 ≠ ParseOutcome.overrun := by
  refine ⟨no_shift_on_dollar h hds, ?_⟩
  intro input fuel res hparse
  have hlast : (input ++ ["$"]).getD ((input ++ ["$"]).length - 1) "" = "$" := by
    rw [List.length_append, List.length_singleton]
    have h1 : input.length + 1 - 1 = input.length := by omega
    rw [h1]
    exact getD_append_dollar input
  have hlen : 0 < (input ++ ["$"]).length := by
    rw [List.length_append, List.length_singleton]
    omega
  exact parseFuel_no_overrun (no_shift_on_dollar h hds) fuel T.action T.gotoT
    [StackEntry.state 0] (input ++ ["$"]) 0 res (fun i s => rfl) hlast hlen hparse

/-- Witness for C10 at the example grammar, whose productions do not
mention the end marker: no shift under `$` at state 0, and a concrete
parse run does not overrun. -/
theorem c10_no_dollar_shift_no_overrun_witness :
    lookupCell egT.action 0 "$" ≠ some (Action.shift 1) ∧
      ((parse egT.action egT.gotoT ["id"] 50).getD
        (ParseOutcome.accepted, [], [])).1 ≠ ParseOutcome.overrun := by
  have hc := c10_no_dollar_shift_no_overrun egGrammar egNts egTerminals egStart 50 10 egT
    (by decide) (by decide)
  refine ⟨hc.1 0 1, ?_⟩
  apply hc.2 ["id"] 50
  decide

/-- The parse stacks the driver can build: state 0 at the bottom, and
every pushed pair (symbol, state) follows a recorded edge — a shift entry
of the action table or a goto-table entry. -/
inductive Path (act : Outer Action) (got : Outer Nat) : Nat → List StackEntry → Prop where
  | base : Path act got 0 [StackEntry.state 0]
  | shiftEdge {i : Nat} {tl : List StackEntry} {X : Sym} {j : Nat} :
      Path act got i tl → lookupCell act i X = some (Action.shift j) →
      Path act got j (StackEntry.state j :: StackEntry.sym X :: tl)
  | gotoEdge {i : Nat} {tl : List StackEntry} {X : Sym} {j : Nat} :
      Path act got i tl → lookupCell got i X = some j →
      Path act got j (StackEntry.state j :: StackEntry.sym X :: tl)

theorem path_shape {act : Outer Action} {got : Outer Nat} {j : Nat}
    {stack : List StackEntry} (h : Path act got j stack) :
    ∃ tl, stack = StackEntry.state j :: tl := by
  cases h with
  | base => exact ⟨[], rfl⟩
  | shiftEdge hprev hedge => exact ⟨_, rfl⟩
  | gotoEdge hprev hedge => exact ⟨_, rfl⟩

/-- Every item of the initial state has the dot at position 0. -/
theorem state0_dot0 {g : Grammar} {nts : List Sym} {start : Sym} {p0 : List Sym}
    {it : Item} (h : it ∈ closure g nts [Item.mk start p0 0]) : it.dot = 0 := by
  rcases closure_origin h with hinit | ⟨hdot, _, _, _⟩
  · rw [List.mem_singleton] at hinit
    subst hinit
    rfl
  · exact hdot

/-- Indices reached by a `Path` over the final tables are in range. -/
theorem path_lt {g : Grammar} {nts : List Sym} {st : BuildSt}
    {ws : List ((Nat × Sym) × Action)}
    (hinv : BfsCore g nts st) (h0 : 0 < st.states.length)
    (hws : ∀ w ∈ ws, ∀ d', w.2 ≠ Action.shift d') :
    ∀ {j : Nat} {stack : List StackEntry},
      Path (applyWrites ws st.action) st.gotoT j stack → j < st.states.length := by
  intro j stack h
  induction h with
  | base => exact h0
  | shiftEdge hprev hedge ih =>
    have hbase := lookup_final_shift hws hedge
    obtain ⟨d, hd, hdlt, _, _⟩ := hinv.act_ok _ (lookupCell_mem hbase)
    cases hd
    exact hdlt
  | gotoEdge hprev hedge ih =>
    exact (hinv.got_ok _ (lookupCell_mem hedge)).1

/-- The walk lemma: if an item with dot position `d` belongs to the state
on top of a driver-reachable stack, then the stack is at least `2 d + 1`
entries deep, and dropping `2 d` entries exposes a reachable state that
holds the same production with the dot at position 0. -/
theorem path_walk {g : Grammar} {nts : List Sym} {start : Sym} {p0 : List Sym}
    {st : BuildSt} {ws : List ((Nat × Sym) × Action)}
    (hinv : BfsCore g nts st)
    (hst0 : st.states.getD 0 [] = closure g nts [Item.mk start p0 0])
    (hws : ∀ w ∈ ws, ∀ d', w.2 ≠ Action.shift d') :
    ∀ (d : Nat) (j : Nat) (stack : List StackEntry) (it : Item),
      Path (applyWrites ws st.action) st.gotoT j stack →
      it ∈ st.states.getD j [] → it.dot = d →
      ∃ j' tl', stack.drop (2 * d) = StackEntry.state j' :: tl' ∧
        Path (applyWrites ws st.action) st.gotoT j' (StackEntry.state j' :: tl') ∧
        Item.mk it.lhs it.rhs 0 ∈ st.states.getD j' [] := by
  intro d
  induction d with
  | zero =>
    intro j stack it hpath hmem hdot
    obtain ⟨tl, rfl⟩ := path_shape hpath
    refine ⟨j, tl, rfl, hpath, ?_⟩
    have : Item.mk it.lhs it.rhs 0 = it := by
      cases it with
      | mk l r dd =>
        simp only [] at hdot
        simp [hdot]
    rw [this]
    exact hmem
  | succ d ih =>
    intro j stack it hpath hmem hdot
    cases hpath with
    | base =>
      rw [hst0] at hmem
      have := state0_dot0 hmem
      omega
    | shiftEdge hprev hedge =>
      next i tl X =>
      have hbase := lookup_final_shift hws hedge
      obtain ⟨dj, hdj, _hdlt, hilt, hset⟩ := hinv.act_ok _ (lookupCell_mem hbase)
      cases hdj
      have hmemg := (setEqItems_mem hset).mp hmem
      unfold goto at hmemg
      rcases closure_origin hmemg with hadv | ⟨hdot0, _, _, _⟩
      · rw [List.mem_map] at hadv
        obtain ⟨src, hsrcf, hsrceq⟩ := hadv
        have hsrcmem := (List.mem_filter.mp hsrcf).1
        have hsrcdot : src.dot = d := by
          have : it.dot = src.dot + 1 := by rw [← hsrceq]
          omega
        obtain ⟨j', tl', hdrop, hpath', hmem0⟩ := ih i tl src hprev hsrcmem hsrcdot
        have hlr : it.lhs = src.lhs ∧ it.rhs = src.rhs := by
          rw [← hsrceq]
          exact ⟨rfl, rfl⟩
        refine ⟨j', tl', ?_, hpath', ?_⟩
        · have harith : 2 * (d + 1) = 2 * d + 1 + 1 := by omega
          rw [harith, List.drop_succ_cons, List.drop_succ_cons]
          exact hdrop
        · rw [hlr.1, hlr.2]
          exact hmem0
      · omega
    | gotoEdge hprev hedge =>
      next i tl X =>
      obtain ⟨_hdlt, hilt, hset⟩ := hinv.got_ok _ (lookupCell_mem hedge)
      have hmemg := (setEqItems_mem hset).mp hmem
      unfold goto at hmemg
      rcases closure_origin hmemg with hadv | ⟨hdot0, _, _, _⟩
      · rw [List.mem_map] at hadv
        obtain ⟨src, hsrcf, hsrceq⟩ := hadv
        have hsrcmem := (List.mem_filter.mp hsrcf).1
        have hsrcdot : src.dot = d := by
          have : it.dot = src.dot + 1 := by rw [← hsrceq]
          omega
        obtain ⟨j', tl', hdrop, hpath', hmem0⟩ := ih i tl src hprev hsrcmem hsrcdot
        have hlr : it.lhs = src.lhs ∧ it.rhs = src.rhs := by
          rw [← hsrceq]
          exact ⟨rfl, rfl⟩
        refine ⟨j', tl', ?_, hpath', ?_⟩
        · have harith : 2 * (d + 1) = 2 * d + 1 + 1 := by omega
          rw [harith, List.drop_succ_cons, List.drop_succ_cons]
          exact hdrop
        · rw [hlr.1, hlr.2]
          exact hmem0
      · omega

/-- A dot-0 item of a non-start non-terminal in a reachable state was
demanded by closure, so the state has an outgoing goto edge on that
non-terminal, which the drained breadth-first loop recorded. -/
theorem path_goto_exists {g : Grammar} {nts terms' : List Sym} {start : Sym}
    {p0 : List Sym} {st : BuildSt} {ws : List ((Nat × Sym) × Action)}
    (hinv : BfsCore g nts st) (h0 : 0 < st.states.length)
    (hws : ∀ w ∈ ws, ∀ d', w.2 ≠ Action.shift d')
    (hent : ∀ i, i < st.states.length → EntriesFor g nts terms' st i)
    (hdisj : ∀ x ∈ nts, x ∉ terms')
    (hst0 : st.states.getD 0 [] = closure g nts [Item.mk start p0 0])
    {A : Sym} {α : List Sym} {j' : Nat} {stack : List StackEntry}
    (hpath : Path (applyWrites ws st.action) st.gotoT j' stack)
    (hA : Item.mk A α 0 ∈ st.states.getD j' []) (hAstart : A ≠ start) :
    ∃ m, lookupCell st.gotoT j' A = some m := by
  -- find a parent item of the state whose dot stands before `A`
  have hparent : ∃ par ∈ st.states.getD j' [], par.active = true ∧ par.next = A ∧ A ∈ nts := by
    cases hpath with
    | base =>
      rw [hst0] at hA ⊢
      rcases closure_origin hA with hinit | ⟨_, hAnts, _, par, hpar, hact, hnext⟩
      · rw [List.mem_singleton] at hinit
        exact absurd (congrArg Item.lhs hinit) hAstart
      · exact ⟨par, hpar, hact, hnext, hAnts⟩
    | shiftEdge hprev hedge =>
      have hbase := lookup_final_shift hws hedge
      obtain ⟨dj, hdj, _hdlt, hilt, hset⟩ := hinv.act_ok _ (lookupCell_mem hbase)
      cases hdj
      have hmemg := (setEqItems_mem hset).mp hA
      unfold goto at hmemg
      rcases closure_origin hmemg with hadv | ⟨_, hAnts, _, par, hpar, hact, hnext⟩
      · rw [List.mem_map] at hadv
        obtain ⟨src, _, hsrceq⟩ := hadv
        have : (0 : Nat) = src.dot + 1 := congrArg Item.dot hsrceq.symm
        omega
      · exact ⟨par, (setEqItems_mem hset).mpr hpar, hact, hnext, hAnts⟩
    | gotoEdge hprev hedge =>
      obtain ⟨_hdlt, hilt, hset⟩ := hinv.got_ok _ (lookupCell_mem hedge)
      have hmemg := (setEqItems_mem hset).mp hA
      unfold goto at hmemg
      rcases closure_origin hmemg with hadv | ⟨_, hAnts, _, par, hpar, hact, hnext⟩
      · rw [List.mem_map] at hadv
        obtain ⟨src, _, hsrceq⟩ := hadv
        have : (0 : Nat) = src.dot + 1 := congrArg Item.dot hsrceq.symm
        omega
      · exact ⟨par, (setEqItems_mem hset).mpr hpar, hact, hnext, hAnts⟩
  obtain ⟨par, hparmem, hact, hnext, hAnts⟩ := hparent
  have hgne : goto g nts (st.states.getD j' []) A ≠ [] := by
    apply List.ne_nil_of_mem (a := Item.mk par.lhs par.rhs (par.dot + 1))
    unfold goto
    apply subset_closure
    rw [List.mem_map]
    refine ⟨par, ?_, rfl⟩
    rw [List.mem_filter]
    refine ⟨hparmem, ?_⟩
    rw [Bool.and_eq_true, decide_eq_true_eq]
    exact ⟨hact, hnext⟩
  have hjlt := path_lt hinv h0 hws hpath
  have := (hent j' hjlt A (List.mem_append.mpr (Or.inr hAnts)) hgne).2 (hdisj A hAnts)
  exact this

/-- The driver loop, run from any reachable configuration over tables
built by a completed construction on a well-formed grammar, can only end
in `accepted` or in a `SyntaxError` that carries the current position and
symbol and is caused by a missing action entry at a reachable state. In
particular the goto lookup never fails, the stack never underflows, the
stack top is always a state, and the input read is always in bounds. -/
theorem parseFuel_sound {g : Grammar} {nts terms' : List Sym} {start : Sym}
    {p0 : List Sym} {folF : Nat} {st : BuildSt} {ws : List ((Nat × Sym) × Action)}
    (hinv : BfsCore g nts st) (h0 : 0 < st.states.length)
    (hws : ∀ w ∈ ws, ∀ d', w.2 ≠ Action.shift d')
    (hr : reduceWrites g terms' start folF 0 st.states = some ws)
    (hent : ∀ i, i < st.states.length → EntriesFor g nts terms' st i)
    (hdisj : ∀ x ∈ nts, x ∉ terms')
    (hst0 : st.states.getD 0 [] = closure g nts [Item.mk start p0 0])
    (hnoshift : ∀ i d, lookupCell (applyWrites ws st.action) i "$" ≠
      some (Action.shift d)) :
    ∀ (n : Nat) (act : Outer Action) (got : Outer Nat) (stack : List StackEntry)
      (input : List Sym) (idx : Nat) (res : ParseOutcome × Outer Action × Outer Nat)
      (j : Nat),
      Path (applyWrites ws st.action) st.gotoT j stack →
      (∀ i s, lookupCell act i s = lookupCell (applyWrites ws st.action) i s) →
      (∀ i s, lookupCell got i s = lookupCell st.gotoT i s) →
      input.getD (input.length - 1) "" = "$" →
      idx < input.length →
      parseFuel act got n stack input idx = some res →
      (res.1 = ParseOutcome.accepted ∨
        ∃ i2 s2, res.1 = ParseOutcome.errorAt i2 s2 ∧ s2 = input.getD i2 "" ∧
          ∃ j2 stk2, Path (applyWrites ws st.action) st.gotoT j2 stk2 ∧
            lookupCell (applyWrites ws st.action) j2 s2 = none) := by
  intro n
  induction n with
  | zero => intro act got stack input idx res j _ _ _ _ _ h; cases h
  | succ n ih =>
    intro act got stack input idx res j hpath hpresA hpresG hlast hidx h
    obtain ⟨tl, rfl⟩ := path_shape hpath
    rw [parseFuel, if_pos hidx] at h
    simp only [] at h
    split at h
    · -- missing entry: SyntaxError at the current position and symbol
      next heq =>
      rw [lookupCell_touchOuter, hpresA] at heq
      have h2 := Option.some.inj h
      refine Or.inr ⟨idx, input.getD idx "", ?_, rfl,
        j, StackEntry.state j :: tl, hpath, heq⟩
      rw [← h2]
    · -- shift: follow the recorded shift edge
      next dest heq =>
      rw [lookupCell_touchOuter, hpresA] at heq
      have hcur : input.getD idx "" ≠ "$" := by
        intro hc
        rw [hc] at heq
        exact hnoshift j dest heq
      have hidx' : idx + 1 < input.length := by
        rcases Nat.lt_or_ge (idx + 1) input.length with hlt | hge
        · exact hlt
        · exfalso
          have : idx = input.length - 1 := by omega
          rw [this] at hcur
          exact hcur hlast
      exact ih _ _ _ _ _ _ _ (Path.shiftEdge hpath heq)
        (fun i s => by rw [lookupCell_touchOuter]; exact hpresA i s) hpresG hlast hidx' h
    · -- reduce: provenance gives a complete item, the walk lemma a safe pop,
      -- and the recorded goto edge a destination
      next lhs rhs heq =>
      rw [lookupCell_touchOuter, hpresA] at heq
      have hbase : ∀ e ∈ cellEntries st.action, ∃ d, e.2 = Action.shift d :=
        fun e he => ⟨(hinv.act_ok e he).choose, (hinv.act_ok e he).choose_spec.1⟩
      obtain ⟨w, hwmem, hwkey, hwval⟩ := lookup_final_reduce hbase heq
      obtain ⟨_, j0, hj0lt, hcell, hred⟩ := reduceWrites_prov st.states 0 ws hr w hwmem
      have hj0 : j0 = j := by
        have hww : w.1.1 = j := by rw [hwkey]
        omega
      rw [hj0] at hred
      obtain ⟨hlstart, hitem⟩ := hred lhs rhs hwval
      have hitemdot : (Item.mk lhs rhs rhs.length).dot = rhs.length := rfl
      obtain ⟨j', tl', hdrop, hpath', hmem0⟩ :=
        path_walk hinv hst0 hws rhs.length j (StackEntry.state j :: tl)
          (Item.mk lhs rhs rhs.length) hpath hitem hitemdot
      split at h
      · -- the pop is in range
        split at h
        · -- the exposed entry is a state: look up the goto edge
          next j2 rest2 heq2 =>
          rw [hdrop] at heq2
          have hj2 : j' = j2 := by cases heq2; rfl
          have hrest2 : tl' = rest2 := by cases heq2; rfl
          subst hj2
          subst hrest2
          split at h
          · -- goto entry missing: impossible on a reachable stack
            next heq3 =>
            rw [lookupCell_touchOuter, hpresG] at heq3
            obtain ⟨m, hm⟩ := path_goto_exists hinv h0 hws hent hdisj hst0 hpath' hmem0 hlstart
            rw [hm] at heq3
            cases heq3
          · next dest heq3 =>
            rw [lookupCell_touchOuter, hpresG] at heq3
            exact ih _ _ _ _ _ _ _ (Path.gotoEdge hpath' heq3)
              (fun i s => by rw [lookupCell_touchOuter]; exact hpresA i s)
              (fun i s => by rw [lookupCell_touchOuter]; exact hpresG i s)
              hlast hidx h
        · -- the exposed entry is not a state: contradicts the walk lemma
          next hno =>
          exact (hno j' tl' hdrop).elim
      · -- underflow: contradicts the walk lemma's depth bound
        next hno =>
        have hlen : (StackEntry.state j :: tl).length ≤ 2 * rhs.length := by omega
        rw [List.drop_eq_nil_of_le hlen] at hdrop
        cases hdrop
    · -- accept
      have h2 := Option.some.inj h
      left
      rw [← h2]

/-- C3: the missing action-table entry is the sole error condition of a
`parse` call, and the raised error identifies the input position and the
offending symbol. For tables built by `items` on a grammar whose
non-terminals are disjoint from its terminals-plus-end-marker and whose
right-hand sides never contain the end marker, every terminating `parse`
run either accepts or raises the `SyntaxError` (`ParseOutcome.errorAt`):
the error's symbol is the input symbol at the error's position, some
reachable state has no action entry for it, and none of the other
conceivable failures — goto-table `KeyError`, stack underflow, a
non-state stack top, or an out-of-bounds input read — can occur; the
error aborts the parse with no recovery (the driver returns at once). -/
theorem c3_sole_error_condition (g : Grammar) (nts terms : List Sym) (start : Sym)
    (bfsF folF : Nat) (T : Tables)
    (h : items g nts terms start bfsF folF = some T)
    (hdisj : ∀ x ∈ nts, x ∉ terms ++ ["$"])
    (hds : ∀ e ∈ g, ∀ p ∈ e.2, "$" ∉ p) :
    ∀ (input : List Sym) (fuel : Nat) (res : ParseOutcome × Outer Action × Outer Nat),
      parse T.action T.gotoT input fuel = some res →
      (res.1 = ParseOutcome.accepted ∨
        ∃ i s, res.1 = ParseOutcome.errorAt i s ∧ s = (input ++ ["$"]).getD i "" ∧
          ∃ j stk, Path T.action T.gotoT j stk ∧ lookupCell T.action j s = none) := by
  have hnoshift := no_shift_on_dollar h hds
  obtain ⟨st, ws, p0, hr, hT, hinv, hst0, _hp0, h0, hent⟩ := items_invariants h
  subst hT
  simp only [] at hnoshift ⊢
  intro input fuel res hparse
  have hws : ∀ w ∈ ws, ∀ d', w.2 ≠ Action.shift d' :=
    fun w hw d' => (reduceWrites_prov st.states 0 ws hr w hw).1 d'
  have hlast : (input ++ ["$"]).getD ((input ++ ["$"]).length - 1) "" = "$" := by
    rw [List.length_append, List.length_singleton]
    have h1 : input.length + 1 - 1 = input.length := by omega
    rw [h1]
    exact getD_append_dollar input
  have hlen : 0 < (input ++ ["$"]).length := by
    rw [List.length_append, List.length_singleton]
    omega
  exact parseFuel_sound hinv h0 hws hr hent hdisj hst0 hnoshift fuel
    (applyWrites ws st.action) st.gotoT [StackEntry.state 0] (input ++ ["$"]) 0 res 0
    Path.base (fun i s => rfl) (fun i s => rfl) hlast hlen hparse

/-- The result of one concrete run on the example grammar's tables. -/
def egRun1 : ParseOutcome × Outer Action × Outer Nat :=
  (parse egT.action egT.gotoT ["id"] 50).getD (ParseOutcome.accepted, [], [])

/-- Witness for C3: the hypotheses hold for the embedded example grammar
and the concrete run on input `[id]`. -/
theorem c3_sole_error_condition_witness :
    egRun1.1 = ParseOutcome.accepted ∨
      ∃ i s, egRun1.1 = ParseOutcome.errorAt i s ∧ s = (["id"] ++ ["$"]).getD i "" ∧
        ∃ j stk, Path egT.action egT.gotoT j stk ∧ lookupCell egT.action j s = none :=
  c3_sole_error_condition egGrammar egNts egTerminals egStart 50 10 egT (by decide)
    (by decide) (by decide) ["id"] 50 egRun1 (by decide)

/-- C8: one iteration of the driver loop does exactly what the claim
says. With a state on top of the stack and the cursor in bounds: a
`shift dest` action pushes the current input symbol, then `dest`, and
advances the cursor by one; a `reduce (lhs, rhs)` action pops
`2 * len(rhs)` stack entries, pushes `lhs`, pushes the goto-table
destination for the newly exposed top state and `lhs`, and leaves the
cursor unchanged; an `accept` action terminates the parse successfully.
(The action lookup goes through `touchOuter` because the source reads the
tables through a `defaultdict`.) -/
theorem c8_driver_steps (act : Outer Action) (got : Outer Nat) (n : Nat) (st : Nat)
    (rest : List StackEntry) (input : List Sym) (idx : Nat)
    (hidx : idx < input.length) :
    (∀ d, lookupCell (touchOuter act st) st (input.getD idx "") = some (Action.shift d) →
      parseFuel act got (n + 1) (StackEntry.state st :: rest) input idx =
        parseFuel (touchOuter act st) got n
          (StackEntry.state d :: StackEntry.sym (input.getD idx "") ::
            StackEntry.state st :: rest) input (idx + 1)) ∧
    (∀ lhs rhs j rest' dest,
      lookupCell (touchOuter act st) st (input.getD idx "") =
        some (Action.reduce lhs rhs) →
      2 * rhs.length < (StackEntry.state st :: rest).length →
      (StackEntry.state st :: rest).drop (2 * rhs.length) =
        StackEntry.state j :: rest' →
      lookupCell (touchOuter got j) j lhs = some dest →
      parseFuel act got (n + 1) (StackEntry.state st :: rest) input idx =
        parseFuel (touchOuter act st) (touchOuter got j) n
          (StackEntry.state dest :: StackEntry.sym lhs ::
            StackEntry.state j :: rest') input idx) ∧
    (lookupCell (touchOuter act st) st (input.getD idx "") = some Action.accept →
      parseFuel act got (n + 1) (StackEntry.state st :: rest) input idx =
        some (ParseOutcome.accepted, touchOuter act st, got)) := by
  refine ⟨?_, ?_, ?_⟩
  · intro d hl
    rw [parseFuel, if_pos hidx]
    simp only [hl]
  · intro lhs rhs j rest' dest hl hlen hdrop hg
    rw [parseFuel, if_pos hidx]
    simp only [hl, if_pos hlen, hdrop, hg]
  · intro hl
    rw [parseFuel, if_pos hidx]
    simp only [hl]

/-- Witness for C8: the first step of parsing `[id]` with the example
grammar's tables is a shift of `id` to state 2. -/
theorem c8_driver_steps_witness :
    parseFuel egT.action egT.gotoT 2 [StackEntry.state 0] ["id", "$"] 0 =
      parseFuel (touchOuter egT.action 0) egT.gotoT 1
        (StackEntry.state 2 :: StackEntry.sym "id" :: [StackEntry.state 0])
        ["id", "$"] 1 :=
  (c8_driver_steps egT.action egT.gotoT 1 0 [] ["id", "$"] 0 (by decide)).1 2 (by decide)

/-- C9: building the automaton and tables for the embedded example grammar and parsing
`[id, *, id, +, id]` ends in the `accept` action (Python's `return
True`). -/
theorem c9_example_parse_accepts :
    (egItems.bind fun t =>
      (parse t.action t.gotoT ["id", "*", "id", "+", "id"] 50).map fun r => r.1) =
      some ParseOutcome.accepted := by
  decide

end LR0
